import Mathlib

/-!
# Merkle tree (package `merkletree`): embedding and verified properties

A shallow embedding of `hash.go` and `merkle_tree.go`.

* A Go `[]byte` is a `List UInt8`; `bytes.Equal` is list equality (it does not
  distinguish the nil slice from the empty one).
* The first embedding treats byte slices as values.  `buildTree` and
  `updateNode` call `append(node.Left.Data, node.Right.Data...)`, which stores
  the right digest behind the left one in the backing array of the left digest
  when its capacity allows.  With the default `Hash` every digest is
  `hash[:16]` of a 32-byte array of its own, the stored bytes land in bytes
  16 to 31 of that array, which no slice shows, and the value embedding is
  exact.  It is not exact for digests that share a backing array.
* The second embedding, in the namespace `Mem`, keeps slice headers and backing
  arrays apart and is used to evaluate the code on slices that share an array.
* A Go `[][]byte` that the code tests against `nil` is an
  `Option (List Bytes)`, with `none` for the nil slice.
* A `*Node` tree is an inductive type whose nodes have either no child or both
  children, which are the only nodes the package ever creates.
* A run-time panic and the exhaustion of the loop bound are explicit values of
  `Outcome`.
-/

set_option maxRecDepth 100000

namespace Merkletree

/-- A Go byte slice. -/
abbrev Bytes := List UInt8

/-! ## `crypto/sha256` (Go standard library, FIPS 180-4)

`hash.go` calls `sha256.Sum256`.  Words are naturals reduced modulo `2^32`. -/

namespace Sha256

/-- Round constants of SHA-256. -/
def K : List Nat := [
  0x428A2F98, 0x71374491, 0xB5C0FBCF, 0xE9B5DBA5, 0x3956C25B, 0x59F111F1, 0x923F82A4, 0xAB1C5ED5,
  0xD807AA98, 0x12835B01, 0x243185BE, 0x550C7DC3, 0x72BE5D74, 0x80DEB1FE, 0x9BDC06A7, 0xC19BF174,
  0xE49B69C1, 0xEFBE4786, 0x0FC19DC6, 0x240CA1CC, 0x2DE92C6F, 0x4A7484AA, 0x5CB0A9DC, 0x76F988DA,
  0x983E5152, 0xA831C66D, 0xB00327C8, 0xBF597FC7, 0xC6E00BF3, 0xD5A79147, 0x06CA6351, 0x14292967,
  0x27B70A85, 0x2E1B2138, 0x4D2C6DFC, 0x53380D13, 0x650A7354, 0x766A0ABB, 0x81C2C92E, 0x92722C85,
  0xA2BFE8A1, 0xA81A664B, 0xC24B8B70, 0xC76C51A3, 0xD192E819, 0xD6990624, 0xF40E3585, 0x106AA070,
  0x19A4C116, 0x1E376C08, 0x2748774C, 0x34B0BCB5, 0x391C0CB3, 0x4ED8AA4A, 0x5B9CCA4F, 0x682E6FF3,
  0x748F82EE, 0x78A5636F, 0x84C87814, 0x8CC70208, 0x90BEFFFA, 0xA4506CEB, 0xBEF9A3F7, 0xC67178F2]

/-- Rotate a 32-bit word right by `n` bits. -/
def rotr (x n : Nat) : Nat := ((x >>> n) ||| (x <<< (32 - n))) % 2 ^ 32

/-- Addition modulo `2^32`. -/
def add32 (x y : Nat) : Nat := (x + y) % 2 ^ 32

/-- Bitwise complement of a 32-bit word. -/
def not32 (x : Nat) : Nat := 2 ^ 32 - 1 - x

/-- The function sigma0 of the message schedule. -/
def ssig0 (x : Nat) : Nat := rotr x 7 ^^^ rotr x 18 ^^^ (x >>> 3)

/-- The function sigma1 of the message schedule. -/
def ssig1 (x : Nat) : Nat := rotr x 17 ^^^ rotr x 19 ^^^ (x >>> 10)

/-- The function Sigma0 of the compression rounds. -/
def bsig0 (x : Nat) : Nat := rotr x 2 ^^^ rotr x 13 ^^^ rotr x 22

/-- The function Sigma1 of the compression rounds. -/
def bsig1 (x : Nat) : Nat := rotr x 6 ^^^ rotr x 11 ^^^ rotr x 25

/-- The choice function. -/
def ch (x y z : Nat) : Nat := (x &&& y) ^^^ (not32 x &&& z)

/-- The majority function. -/
def maj (x y z : Nat) : Nat := (x &&& y) ^^^ (x &&& z) ^^^ (y &&& z)

/-- Padding: the byte `0x80`, zero bytes up to 56 modulo 64, then the bit
length of the message as 8 big-endian bytes. -/
def pad (msg : List Nat) : List Nat :=
  let l := msg.length
  let bits := 8 * l
  msg ++ [0x80] ++ List.replicate ((119 - l % 64) % 64) 0 ++
    [bits >>> 56 % 256, bits >>> 48 % 256, bits >>> 40 % 256, bits >>> 32 % 256,
     bits >>> 24 % 256, bits >>> 16 % 256, bits >>> 8 % 256, bits % 256]

/-- Big-endian 32-bit words of a byte sequence. -/
def words : List Nat → List Nat
  | a :: b :: c :: d :: rest => (a * 2 ^ 24 + b * 2 ^ 16 + c * 2 ^ 8 + d) :: words rest
  | _ => []

/-- Message schedule, newest word first: extend it by `n` words. -/
def schedule : Nat → List Nat → List Nat
  | 0, ws => ws
  | n + 1, ws =>
    schedule n
      (add32 (add32 (ssig1 (ws.getD 1 0)) (ws.getD 6 0))
        (add32 (ssig0 (ws.getD 14 0)) (ws.getD 15 0)) :: ws)

/-- The eight working variables. -/
structure St where
  a : Nat
  b : Nat
  c : Nat
  d : Nat
  e : Nat
  f : Nat
  g : Nat
  h : Nat

/-- One compression round with constant `k` and schedule word `w`. -/
def round (s : St) (k w : Nat) : St :=
  let t1 := add32 (add32 (add32 s.h (bsig1 s.e)) (add32 (ch s.e s.f s.g) k)) w
  let t2 := add32 (bsig0 s.a) (maj s.a s.b s.c)
  ⟨add32 t1 t2, s.a, s.b, s.c, add32 s.d t1, s.e, s.f, s.g⟩

/-- All rounds, one per pair of a constant and a schedule word. -/
def rounds : St → List Nat → List Nat → St
  | s, k :: ks, w :: ws => rounds (round s k w) ks ws
  | s, _, _ => s

/-- Compression of one 64-byte block into the chaining value. -/
def compress (s : St) (block : List Nat) : St :=
  let t := rounds s K (schedule 48 (words block).reverse).reverse
  ⟨add32 s.a t.a, add32 s.b t.b, add32 s.c t.c, add32 s.d t.d,
   add32 s.e t.e, add32 s.f t.f, add32 s.g t.g, add32 s.h t.h⟩

/-- Compression of `n` consecutive blocks. -/
def blocks : Nat → St → List Nat → St
  | 0, s, _ => s
  | n + 1, s, bs => blocks n (compress s (bs.take 64)) (bs.drop 64)

/-- The four big-endian bytes of a word. -/
def wordBytes (w : Nat) : Bytes :=
  [(w >>> 24 % 256).toUInt8, (w >>> 16 % 256).toUInt8, (w >>> 8 % 256).toUInt8,
   (w % 256).toUInt8]

/-- The 32-byte SHA-256 digest, `sha256.Sum256`. -/
def Sum256 (data : Bytes) : Bytes :=
  let p := pad (data.map UInt8.toNat)
  let s := blocks (p.length / 64)
    ⟨0x6A09E667, 0xBB67AE85, 0x3C6EF372, 0xA54FF53A,
     0x510E527F, 0x9B05688C, 0x1F83D9AB, 0x5BE0CD19⟩ p
  wordBytes s.a ++ wordBytes s.b ++ wordBytes s.c ++ wordBytes s.d ++
  wordBytes s.e ++ wordBytes s.f ++ wordBytes s.g ++ wordBytes s.h

end Sha256

/-! ## `hash.go` -/

/-- The default hash function: `sha256.Sum256(data)[:16]`. -/
def Hash (data : Bytes) : Bytes := (Sha256.Sum256 data).take 16

/-! ## `merkle_tree.go`: data model -/

/-- A tree node (`Node`): `leaf` has `Left == nil && Right == nil`, `inner` has
both children. -/
inductive Node where
  | leaf (data : Bytes)
  | inner (left right : Node) (data : Bytes)
deriving DecidableEq

/-- The field `Data` of a node. -/
def Node.Data : Node → Bytes
  | .leaf d => d
  | .inner _ _ d => d

/-- The struct `MerkleTree`: the root node and the hash function. -/
structure MerkleTree where
  Root : Node
  HashFunction : Bytes → Bytes

/-- How a call ends: with a value, with the run-time panic
"index out of range", or with the loop bound of the model exhausted. -/
inductive Outcome (α : Type) where
  | ok (value : α)
  | indexOutOfRange
  | fuelExhausted

/-! ## `merkle_tree.go`: construction -/

/-- The inner loop of `buildTree`, `for j := 0; j < len(nodes); j += 2`, on the
nodes from index `j` on: a last unpaired node is appended as it is, a pair
becomes a parent whose data is the hash of the two data concatenated.  The
in-place store of `append(node.Left.Data, node.Right.Data...)` is not shown:
exact for digests that share no backing array, as those of `Hash`;
`Mem.combineLevel` shows it. -/
def combineLevel (hashFunction : Bytes → Bytes) : List Node → List Node
  | [] => []
  | [n] => [n]
  | l :: r :: rest =>
    Node.inner l r (hashFunction (l.Data ++ r.Data)) :: combineLevel hashFunction rest

/-- The outer loop of `buildTree`, `for len(nodes) > 1`, run for at most `fuel`
passes; `none` when a further pass would be needed. -/
def buildLoop (hashFunction : Bytes → Bytes) : Nat → List Node → Option (List Node)
  | 0, nodes => if nodes.length > 1 then none else some nodes
  | fuel + 1, nodes =>
    if nodes.length > 1 then buildLoop hashFunction fuel (combineLevel hashFunction nodes)
    else some nodes

/-- The method `buildTree`: leaf nodes, then the pairing loop, then `&nodes[0]`.
The loop is given `len(data)` passes. -/
def buildTree (hashFunction : Bytes → Bytes) (data : List Bytes) : Outcome Node :=
  match buildLoop hashFunction data.length (data.map Node.leaf) with
  | none => .fuelExhausted
  | some [] => .indexOutOfRange
  | some (root :: _) => .ok root

/-- The function `NewMerkleTree`; `hashDetails` is the variadic argument. -/
def NewMerkleTree (data : List Bytes) (hashDetails : List (Bytes → Bytes)) :
    Outcome MerkleTree :=
  let hashFunction := match hashDetails with
    | [] => Hash
    | f :: _ => f
  match buildTree hashFunction (data.map hashFunction) with
  | .ok root => .ok ⟨root, hashFunction⟩
  | .indexOutOfRange => .indexOutOfRange
  | .fuelExhausted => .fuelExhausted

/-! ## `merkle_tree.go`: queries and proofs -/

/-- The method `GetRootHash`. -/
def MerkleTree.GetRootHash (merkleTree : MerkleTree) : Bytes := merkleTree.Root.Data

/-- The method `getHashPath`; `none` is the nil slice, and
`append([][]byte{x}, merklePath...)` is `some (x :: merklePath.getD [])`. -/
def Node.getHashPath : Node → Bytes → Option (List Bytes) → Option (List Bytes)
  | .leaf d, data, merklePath => if d = data then merklePath else none
  | .inner l r d, data, merklePath =>
    if d = data then merklePath
    else
      match l.getHashPath data (some (r.Data :: merklePath.getD [])) with
      | some leftPath => some leftPath
      | none =>
        match r.getHashPath data (some (l.Data :: merklePath.getD [])) with
        | some rightPath => some rightPath
        | none => none

/-- The method `GetMerklePath`: the accumulator starts as the nil slice. -/
def MerkleTree.GetMerklePath (merkleTree : MerkleTree) (data : Bytes) : Option (List Bytes) :=
  merkleTree.Root.getHashPath (merkleTree.HashFunction data) none

/-- The function `VerifyMerklePath`; ranging over the nil slice runs no
iteration. -/
def VerifyMerklePath (rootHash data : Bytes) (merklePath : Option (List Bytes)) : Bool :=
  decide ((merklePath.getD []).foldl (fun hash path => Hash (hash ++ path)) (Hash data)
    = rootHash)

/-! ## `merkle_tree.go`: mutation -/

/-- The method `updateNode`: the node after the call and the returned flag.
The right subtree is visited only when the left call returned false.  The
in-place store of `append(node.Left.Data, node.Right.Data...)` is not shown:
exact for digests that share no backing array, as those of `Hash`;
`Mem.Node.updateNode` shows it. -/
def Node.updateNode (newHash oldHash : Bytes) (hashFunc : Bytes → Bytes) : Node → Node × Bool
  | .leaf d => if d = oldHash then (.leaf newHash, true) else (.leaf d, false)
  | .inner l r d =>
    if d = oldHash then (.inner l r newHash, true)
    else
      let ul := l.updateNode newHash oldHash hashFunc
      if ul.2 then (.inner ul.1 r (hashFunc (ul.1.Data ++ r.Data)), true)
      else
        let ur := r.updateNode newHash oldHash hashFunc
        if ur.2 then (.inner ul.1 ur.1 (hashFunc (ul.1.Data ++ ur.1.Data)), true)
        else (.inner ul.1 ur.1 d, false)

/-- The method `UpdateMerkleTree`: the tree after the call and the returned
flag. -/
def MerkleTree.UpdateMerkleTree (merkleTree : MerkleTree) (newData oldData : Bytes) :
    MerkleTree × Bool :=
  let u := merkleTree.Root.updateNode (merkleTree.HashFunction newData)
    (merkleTree.HashFunction oldData) merkleTree.HashFunction
  (⟨u.1, merkleTree.HashFunction⟩, u.2)

/-- The method `getLeafNodeData`: the slice behind the pointer after the
call. -/
def Node.getLeafNodeData : Node → List Bytes → List Bytes
  | .leaf d, leafNodeData => leafNodeData ++ [d]
  | .inner l r _, leafNodeData => r.getLeafNodeData (l.getLeafNodeData leafNodeData)

/-- The method `GetLeafNodeData`. -/
def MerkleTree.GetLeafNodeData (merkleTree : MerkleTree) : List Bytes :=
  merkleTree.Root.getLeafNodeData []

/-- The method `AddData`: the tree after the call. -/
def MerkleTree.AddData (merkleTree : MerkleTree) (data : Bytes) : Outcome MerkleTree :=
  let dataHash := merkleTree.HashFunction data
  let leafNodeData := merkleTree.GetLeafNodeData ++ [dataHash]
  match buildTree merkleTree.HashFunction leafNodeData with
  | .ok root => .ok ⟨root, merkleTree.HashFunction⟩
  | .indexOutOfRange => .indexOutOfRange
  | .fuelExhausted => .fuelExhausted

/-- The method `getMaxDepth`. -/
def Node.getMaxDepth : Node → Nat
  | .leaf _ => 1
  | .inner l r _ =>
    let leftDepth := l.getMaxDepth
    let rightDepth := r.getMaxDepth
    if leftDepth > rightDepth then leftDepth + 1 else rightDepth + 1

/-- The method `GetMaxDepth`. -/
def MerkleTree.GetMaxDepth (merkleTree : MerkleTree) : Nat := merkleTree.Root.getMaxDepth

/-! ## Test data of `merkle_tree_test.go` -/

/-- The block `[]byte("hello")`. -/
def hello : Bytes := [104, 101, 108, 108, 111]

/-- The block `[]byte("world")`. -/
def world : Bytes := [119, 111, 114, 108, 100]

/-- The block `[]byte("foo")`. -/
def foo : Bytes := [102, 111, 111]

/-- The block `[]byte("bar")`. -/
def bar : Bytes := [98, 97, 114]

/-- The 32-byte block that is `Hash("hello")` followed by `Hash("world")`. -/
def helloWorldDigests : Bytes :=
  [44, 242, 77, 186, 95, 176, 163, 14, 38, 232, 59, 42, 197, 185, 226, 158,
   72, 110, 164, 98, 36, 209, 187, 79, 182, 128, 243, 79, 124, 154, 217, 106]

/-! ## `merkle_tree.go` on slices in memory -/

namespace Mem

/-- A Go slice header of a `[]byte`: the number of the backing array, the
offset of the slice in it, its length and its capacity. -/
structure Slice where
  arr : Nat
  off : Nat
  len : Nat
  cap : Nat
deriving DecidableEq

/-- The memory: the contents of the backing arrays, by number. -/
abbrev Heap := List (List UInt8)

/-- The bytes a slice shows. -/
def read (heap : Heap) (s : Slice) : Bytes :=
  ((heap.getD s.arr []).drop s.off).take s.len

/-- The memory after `bytes` are stored in array `arr` from position `pos`
on. -/
def write (heap : Heap) (arr pos : Nat) (bytes : Bytes) : Heap :=
  heap.set arr ((heap.getD arr []).take pos ++ bytes ++
    (heap.getD arr []).drop (pos + bytes.length))

/-- The built-in `append(s, t...)`: within the capacity of `s` the bytes of `t`
are stored behind `s` in its own backing array; beyond it a new array receives
the bytes of both, with `spare` further bytes of capacity, as the runtime
chooses. -/
def goAppend (spare : Nat → Nat → Nat) (heap : Heap) (s t : Slice) : Heap × Slice :=
  if s.len + t.len ≤ s.cap then
    (write heap s.arr (s.off + s.len) (read heap t), ⟨s.arr, s.off, s.len + t.len, s.cap⟩)
  else
    (heap ++ [read heap s ++ read heap t ++ List.replicate (spare s.cap (s.len + t.len)) 0],
      ⟨heap.length, 0, s.len + t.len, s.len + t.len + spare s.cap (s.len + t.len)⟩)

/-- A `func([]byte) []byte`: it may allocate, and returns a slice header. -/
abbrev HashFn := Heap → Slice → Heap × Slice

/-- The function `Hash` of `hash.go`: the 32-byte array `hash` is new, the
result is `hash[:16]`. -/
def Hash : HashFn := fun heap data =>
  (heap ++ [Sha256.Sum256 (read heap data)], ⟨heap.length, 0, 16, 32⟩)

/-- The hash function `func(b []byte) []byte { return b }`. -/
def identity : HashFn := fun heap b => (heap, b)

/-- The struct `Node`, its `Data` a slice header. -/
inductive Node where
  | leaf (data : Slice)
  | inner (left right : Node) (data : Slice)
deriving DecidableEq

/-- The field `Data` of a node. -/
def Node.Data : Node → Slice
  | .leaf d => d
  | .inner _ _ d => d

/-- The struct `MerkleTree`. -/
structure MerkleTree where
  Root : Node
  HashFunction : HashFn

/-- The inner loop of `buildTree`, from index `j` on: line 59 first runs
`append(node.Left.Data, node.Right.Data...)`, which may store into the backing
array of the left digest, then the hash function on the result. -/
def combineLevel (spare : Nat → Nat → Nat) (hashFunction : HashFn) :
    Heap → List Node → List Node × Heap
  | heap, [] => ([], heap)
  | heap, [n] => ([n], heap)
  | heap, l :: r :: rest =>
    let joined := goAppend spare heap l.Data r.Data
    let hash := hashFunction joined.1 joined.2
    let level := combineLevel spare hashFunction hash.1 rest
    (Node.inner l r hash.2 :: level.1, level.2)

/-- The outer loop of `buildTree`, for at most `fuel` passes. -/
def buildLoop (spare : Nat → Nat → Nat) (hashFunction : HashFn) :
    Nat → Heap → List Node → Option (List Node × Heap)
  | 0, heap, nodes => if nodes.length > 1 then none else some (nodes, heap)
  | fuel + 1, heap, nodes =>
    if nodes.length > 1 then
      let level := combineLevel spare hashFunction heap nodes
      buildLoop spare hashFunction fuel level.2 level.1
    else some (nodes, heap)

/-- The method `buildTree`. -/
def buildTree (spare : Nat → Nat → Nat) (hashFunction : HashFn) (heap : Heap)
    (data : List Slice) : Outcome (Node × Heap) :=
  match buildLoop spare hashFunction data.length heap (data.map Node.leaf) with
  | none => .fuelExhausted
  | some ([], _) => .indexOutOfRange
  | some (root :: _, heap2) => .ok (root, heap2)

/-- The loop of `NewMerkleTree` that hashes every datum. -/
def hashData (hashFunction : HashFn) : Heap → List Slice → List Slice × Heap
  | heap, [] => ([], heap)
  | heap, datum :: rest =>
    let hash := hashFunction heap datum
    let hashes := hashData hashFunction hash.1 rest
    (hash.2 :: hashes.1, hashes.2)

/-- The function `NewMerkleTree`. -/
def NewMerkleTree (spare : Nat → Nat → Nat) (heap : Heap) (data : List Slice)
    (hashDetails : List HashFn) : Outcome (MerkleTree × Heap) :=
  let hashFunction := match hashDetails with
    | [] => Hash
    | f :: _ => f
  let hashes := hashData hashFunction heap data
  match buildTree spare hashFunction hashes.2 hashes.1 with
  | .ok (root, heap2) => .ok (⟨root, hashFunction⟩, heap2)
  | .indexOutOfRange => .indexOutOfRange
  | .fuelExhausted => .fuelExhausted

/-- The method `getLeafNodeData`. -/
def Node.getLeafNodeData : Node → List Slice → List Slice
  | .leaf d, leafNodeData => leafNodeData ++ [d]
  | .inner l r _, leafNodeData => r.getLeafNodeData (l.getLeafNodeData leafNodeData)

/-- The method `GetLeafNodeData`. -/
def MerkleTree.GetLeafNodeData (merkleTree : MerkleTree) : List Slice :=
  merkleTree.Root.getLeafNodeData []

/-- The method `GetRootHash`. -/
def MerkleTree.GetRootHash (merkleTree : MerkleTree) : Slice := merkleTree.Root.Data

/-- The method `AddData`. -/
def MerkleTree.AddData (spare : Nat → Nat → Nat) (merkleTree : MerkleTree) (heap : Heap)
    (data : Slice) : Outcome (MerkleTree × Heap) :=
  let dataHash := merkleTree.HashFunction heap data
  let leafNodeData := merkleTree.GetLeafNodeData ++ [dataHash.2]
  match buildTree spare merkleTree.HashFunction dataHash.1 leafNodeData with
  | .ok (root, heap2) => .ok (⟨root, merkleTree.HashFunction⟩, heap2)
  | .indexOutOfRange => .indexOutOfRange
  | .fuelExhausted => .fuelExhausted

/-- The method `updateNode`: the node, the returned flag and the memory after
the call.  `bytes.Equal` compares what the slices show at that moment; line 127
runs the same `append` as line 59. -/
def Node.updateNode (spare : Nat → Nat → Nat) (newHash oldHash : Slice) (hashFunc : HashFn) :
    Heap → Node → (Node × Bool) × Heap
  | heap, .leaf d =>
    if read heap d = read heap oldHash then ((.leaf newHash, true), heap)
    else ((.leaf d, false), heap)
  | heap, .inner l r d =>
    if read heap d = read heap oldHash then ((.inner l r newHash, true), heap)
    else
      let ul := Node.updateNode spare newHash oldHash hashFunc heap l
      if ul.1.2 then
        let joined := goAppend spare ul.2 ul.1.1.Data r.Data
        let hash := hashFunc joined.1 joined.2
        ((.inner ul.1.1 r hash.2, true), hash.1)
      else
        let ur := Node.updateNode spare newHash oldHash hashFunc ul.2 r
        if ur.1.2 then
          let joined := goAppend spare ur.2 ul.1.1.Data ur.1.1.Data
          let hash := hashFunc joined.1 joined.2
          ((.inner ul.1.1 ur.1.1 hash.2, true), hash.1)
        else ((.inner ul.1.1 ur.1.1 d, false), ur.2)

/-- The method `UpdateMerkleTree`. -/
def MerkleTree.UpdateMerkleTree (spare : Nat → Nat → Nat) (merkleTree : MerkleTree)
    (heap : Heap) (newData oldData : Slice) : (MerkleTree × Bool) × Heap :=
  let newHash := merkleTree.HashFunction heap newData
  let oldHash := merkleTree.HashFunction newHash.1 oldData
  let u := Node.updateNode spare newHash.2 oldHash.2 merkleTree.HashFunction oldHash.1
    merkleTree.Root
  ((⟨u.1.1, merkleTree.HashFunction⟩, u.1.2), u.2)

/-- The slice headers of the nodes that have children, in search order. -/
def Node.innerDigests : Node → List Slice
  | .leaf _ => []
  | .inner l r d => d :: (l.innerDigests ++ r.innerDigests)

end Mem

/-- The bytes of an ASCII string, as `[]byte(s)` gives them. -/
def bytesOf (s : String) : Bytes := s.data.map (fun c => c.toNat.toUInt8)

/-! ## Vocabulary of the statements -/

/-- The digests of all nodes of a tree, in the order of the depth-first,
left-first search. -/
def Node.digests : Node → List Bytes
  | .leaf d => [d]
  | .inner l r d => d :: (l.digests ++ r.digests)

/-- The digests of the nodes that have children. -/
def Node.innerDigests : Node → List Bytes
  | .leaf _ => []
  | .inner l r d => d :: (l.innerDigests ++ r.innerDigests)

/-- The leaf digests of a list of trees, left to right. -/
def forestLeaves : List Node → List Bytes
  | [] => []
  | n :: ns => n.getLeafNodeData [] ++ forestLeaves ns

/-- The hash function `NewMerkleTree` stores in the tree. -/
def chosenHash (hashDetails : List (Bytes → Bytes)) : Bytes → Bytes :=
  match hashDetails with
  | [] => Hash
  | f :: _ => f

/-- The byte strings `VerifyMerklePath` passes to `Hash` inside its loop, when
the loop starts with the digest `hash` and ranges over `merklePath`. -/
def chainInputs : Bytes → List Bytes → List Bytes
  | _, [] => []
  | hash, path :: rest => (hash ++ path) :: chainInputs (Hash (hash ++ path)) rest

/-- All byte strings `VerifyMerklePath(rootHash, data, merklePath)` passes to
`Hash`: the data, then the running digest followed by each path entry. -/
def hashedInputs (data : Bytes) (merklePath : List Bytes) : List Bytes :=
  data :: chainInputs (Hash data) merklePath

/-- The default hash function has no collision among the listed strings. -/
def CollisionFreeOn (inputs : List Bytes) : Prop :=
  ∀ x ∈ inputs, ∀ y ∈ inputs, Hash x = Hash y → x = y

instance (inputs : List Bytes) : Decidable (CollisionFreeOn inputs) :=
  inferInstanceAs (Decidable (∀ x ∈ inputs, ∀ y ∈ inputs, Hash x = Hash y → x = y))

/-- The shape of a tree: the tree with every digest erased. -/
def Node.shape : Node → Node
  | .leaf _ => .leaf []
  | .inner l r _ => .inner l.shape r.shape []

/-- The Merkle invariant: the digest of every node with children is the hash
of the digests of its left and right child concatenated. -/
def Node.Merkle (hf : Bytes → Bytes) : Node → Prop
  | .leaf _ => True
  | .inner l r d => d = hf (l.Data ++ r.Data) ∧ l.Merkle hf ∧ r.Merkle hf

/-- A list of digests with the first occurrence of `old` replaced by `new`. -/
def replaceFirst (old new : Bytes) : List Bytes → List Bytes
  | [] => []
  | x :: xs => if x = old then new :: xs else x :: replaceFirst old new xs

/-- The node list after `j` passes of the body of the outer loop of
`buildTree`. -/
def passes (hashFunction : Bytes → Bytes) : Nat → List Node → List Node
  | 0, nodes => nodes
  | j + 1, nodes => passes hashFunction j (combineLevel hashFunction nodes)

/-- The digest of the leftmost leaf of a tree. -/
def Node.leftmost : Node → Bytes
  | .leaf d => d
  | .inner l _ _ => l.leftmost

/-- The Merkle invariant can be checked node by node. -/
instance Node.decidableMerkle (hf : Bytes → Bytes) : (t : Node) → Decidable (t.Merkle hf)
  | .leaf _ => isTrue True.intro
  | .inner l r d =>
    have := Node.decidableMerkle hf l
    have := Node.decidableMerkle hf r
    inferInstanceAs (Decidable (d = hf (l.Data ++ r.Data) ∧ l.Merkle hf ∧ r.Merkle hf))

/-- The first node with digest `o` that the depth-first, left-first search of
`updateNode` meets: `none` when no node has the digest, `some true` when the
first such node has children, `some false` when it is a leaf. -/
def Node.firstMatchInner (o : Bytes) : Node → Option Bool
  | .leaf d => if d = o then some false else none
  | .inner l r d =>
    if d = o then some true
    else
      match l.firstMatchInner o with
      | some b => some b
      | none => r.firstMatchInner o

/-- The trees the package produces with the default hash function:
`NewMerkleTree(blocks)`, then any calls of `UpdateMerkleTree` and `AddData`. -/
inductive FromDefaultHash : MerkleTree → Prop where
  | new (blocks : List Bytes) (T : MerkleTree) :
      NewMerkleTree blocks [] = .ok T → FromDefaultHash T
  | update (T : MerkleTree) (newData oldData : Bytes) :
      FromDefaultHash T → FromDefaultHash (T.UpdateMerkleTree newData oldData).1
  | add (T T1 : MerkleTree) (data : Bytes) :
      FromDefaultHash T → T.AddData data = .ok T1 → FromDefaultHash T1

/-! ## The hash function -/

/-- The test vector "abc" of FIPS 180-4. -/
theorem Sum256_abc :
    Sha256.Sum256 [97, 98, 99] =
      [0xBA, 0x78, 0x16, 0xBF, 0x8F, 0x01, 0xCF, 0xEA, 0x41, 0x41, 0x40, 0xDE, 0x5D, 0xAE,
       0x22, 0x23, 0xB0, 0x03, 0x61, 0xA3, 0x96, 0x17, 0x7A, 0x9C, 0xB4, 0x10, 0xFF, 0x61,
       0xF2, 0x00, 0x15, 0xAD] := by
  decide

/-- The two-block test vector of FIPS 180-4, the 56 bytes
"abcdbcdecdefdefgefghfghighijhijkijkljklmklmnlmnomnopnopq". -/
theorem Sum256_two_blocks :
    Sha256.Sum256 [97, 98, 99, 100, 98, 99, 100, 101, 99, 100, 101, 102, 100, 101, 102, 103,
      101, 102, 103, 104, 102, 103, 104, 105, 103, 104, 105, 106, 104, 105, 106, 107,
      105, 106, 107, 108, 106, 107, 108, 109, 107, 108, 109, 110, 108, 109, 110, 111,
      109, 110, 111, 112, 110, 111, 112, 113] =
      [0x24, 0x8D, 0x6A, 0x61, 0xD2, 0x06, 0x38, 0xB8, 0xE5, 0xC0, 0x26, 0x93, 0x0C, 0x3E,
       0x60, 0x39, 0xA3, 0x3C, 0xE4, 0x59, 0x64, 0xFF, 0x21, 0x67, 0xF6, 0xEC, 0xED, 0xD4,
       0x19, 0xDB, 0x06, 0xC1] := by
  decide

/-- An injective hash function has no collision on any list of strings. -/
theorem collisionFreeOn_of_injective (h : Function.Injective Hash) (inputs : List Bytes) :
    CollisionFreeOn inputs :=
  fun _ _ _ _ e => h e

/-! ## The pairing loop -/

theorem combineLevel_length (hf : Bytes → Bytes) :
    ∀ nodes : List Node, (combineLevel hf nodes).length = (nodes.length + 1) / 2
  | [] => by simp [combineLevel]
  | [_] => by simp [combineLevel]
  | l :: r :: rest => by
    simp only [combineLevel, List.length_cons, combineLevel_length hf rest]
    omega

theorem combineLevel_ne_nil (hf : Bytes → Bytes) (nodes : List Node) (h : nodes ≠ []) :
    combineLevel hf nodes ≠ [] := by
  intro hc
  have hl := combineLevel_length hf nodes
  rw [hc] at hl
  have : 0 < nodes.length := List.length_pos.mpr h
  simp only [List.length_nil] at hl
  omega

/-- With one pass per node the loop always reaches its exit, and it exits with
at most one node, exactly one when it started with some. -/
theorem buildLoop_exits (hf : Bytes → Bytes) :
    ∀ (fuel : Nat) (nodes : List Node), nodes.length ≤ fuel + 1 →
      ∃ r, buildLoop hf fuel nodes = some r ∧ r.length ≤ 1 ∧ (nodes ≠ [] → r ≠ [])
  | 0, nodes, h => by
    refine ⟨nodes, ?_, h, fun hn => hn⟩
    have : ¬ nodes.length > 1 := by omega
    simp [buildLoop, this]
  | fuel + 1, nodes, h => by
    by_cases hlen : nodes.length > 1
    · have hl := combineLevel_length hf nodes
      have hle : (combineLevel hf nodes).length ≤ fuel + 1 := by omega
      obtain ⟨r, hr, hr1, hr2⟩ := buildLoop_exits hf fuel (combineLevel hf nodes) hle
      refine ⟨r, ?_, hr1, fun hn => hr2 (combineLevel_ne_nil hf nodes hn)⟩
      simp [buildLoop, hlen, hr]
    · refine ⟨nodes, ?_, by omega, fun hn => hn⟩
      simp [buildLoop, hlen]

/-- A property of the node list that every pass keeps holds when the loop
exits. -/
theorem buildLoop_keeps (hf : Bytes → Bytes) (P : List Node → Prop)
    (hstep : ∀ nodes, P nodes → P (combineLevel hf nodes)) :
    ∀ (fuel : Nat) (nodes r : List Node), P nodes → buildLoop hf fuel nodes = some r → P r
  | 0, nodes, r, hP, h => by
    by_cases hlen : nodes.length > 1
    · simp [buildLoop, hlen] at h
    · simp [buildLoop, hlen] at h
      exact h ▸ hP
  | fuel + 1, nodes, r, hP, h => by
    by_cases hlen : nodes.length > 1
    · simp only [buildLoop, hlen, if_true] at h
      exact buildLoop_keeps hf P hstep fuel _ r (hstep nodes hP) h
    · simp [buildLoop, hlen] at h
      exact h ▸ hP

/-- On a non-empty input `buildTree` returns a node, the single node the loop
exits with. -/
theorem buildTree_ok (hf : Bytes → Bytes) (data : List Bytes) (h : data ≠ []) :
    ∃ root, buildLoop hf data.length (data.map Node.leaf) = some [root] ∧
      buildTree hf data = .ok root := by
  obtain ⟨r, hr, hr1, hr2⟩ := buildLoop_exits hf data.length (data.map Node.leaf)
    (by simp)
  have hne : r ≠ [] := hr2 (by simpa using h)
  match r, hr, hr1, hne with
  | [root], hr, _, _ => exact ⟨root, hr, by simp [buildTree, hr]⟩
  | _ :: _ :: _, _, hr1, _ => simp at hr1

theorem NewMerkleTree_ok (data : List Bytes) (hashDetails : List (Bytes → Bytes))
    (root : Node) (h : buildTree (chosenHash hashDetails) (data.map (chosenHash hashDetails))
      = .ok root) :
    NewMerkleTree data hashDetails = .ok ⟨root, chosenHash hashDetails⟩ := by
  cases hashDetails with
  | nil => simp only [chosenHash] at h; simp [NewMerkleTree, h, chosenHash]
  | cons f fs => simp only [chosenHash] at h; simp [NewMerkleTree, h, chosenHash]

/-! ## Leaves -/

theorem getLeafNodeData_acc :
    ∀ (t : Node) (acc : List Bytes), t.getLeafNodeData acc = acc ++ t.getLeafNodeData []
  | .leaf d, acc => by simp [Node.getLeafNodeData]
  | .inner l r _, acc => by
    simp only [Node.getLeafNodeData]
    rw [getLeafNodeData_acc r (l.getLeafNodeData acc), getLeafNodeData_acc l acc,
      getLeafNodeData_acc r (l.getLeafNodeData []), List.append_assoc]

theorem getLeafNodeData_inner (l r : Node) (d : Bytes) :
    (Node.inner l r d).getLeafNodeData [] = l.getLeafNodeData [] ++ r.getLeafNodeData [] := by
  simp only [Node.getLeafNodeData]
  exact getLeafNodeData_acc r _

theorem forestLeaves_combineLevel (hf : Bytes → Bytes) :
    ∀ nodes : List Node, forestLeaves (combineLevel hf nodes) = forestLeaves nodes
  | [] => rfl
  | [_] => rfl
  | l :: r :: rest => by
    simp only [combineLevel, forestLeaves, getLeafNodeData_inner,
      forestLeaves_combineLevel hf rest, List.append_assoc]

theorem forestLeaves_map_leaf : ∀ data : List Bytes, forestLeaves (data.map Node.leaf) = data
  | [] => rfl
  | d :: ds => by
    simp [forestLeaves, Node.getLeafNodeData, forestLeaves_map_leaf ds]

/-- The leaves of the tree `buildTree` returns are the input digests. -/
theorem buildTree_leaves (hf : Bytes → Bytes) (data : List Bytes) (root : Node)
    (h : buildTree hf data = .ok root) : root.getLeafNodeData [] = data := by
  have hne : data ≠ [] := by
    rintro rfl
    simp [buildTree, buildLoop] at h
  obtain ⟨root2, hloop, hok⟩ := buildTree_ok hf data hne
  rw [hok] at h
  cases h
  have := buildLoop_keeps hf (fun ns => forestLeaves ns = data)
    (fun ns hns => by
      show forestLeaves (combineLevel hf ns) = data
      rw [forestLeaves_combineLevel]; exact hns)
    data.length _ _ (forestLeaves_map_leaf data) hloop
  simpa [forestLeaves] using this

theorem buildTree_four (hf : Bytes → Bytes) (d0 d1 d2 d3 : Bytes) :
    buildTree hf [d0, d1, d2, d3] = .ok (.inner
      (.inner (.leaf d0) (.leaf d1) (hf (d0 ++ d1)))
      (.inner (.leaf d2) (.leaf d3) (hf (d2 ++ d3)))
      (hf (hf (d0 ++ d1) ++ hf (d2 ++ d3)))) := by
  simp [buildTree, buildLoop, combineLevel, Node.Data]

theorem getHashPath_four (d0 d1 d2 d3 x y z : Bytes) (hx : x ≠ d0) (hy : y ≠ d0) :
    (Node.inner (.inner (.leaf d0) (.leaf d1) y) (.inner (.leaf d2) (.leaf d3) z)
      x).getHashPath d0 none = some [d1, z] := by
  simp [Node.getHashPath, Node.Data, hx, hy]

theorem buildTree_one (hf : Bytes → Bytes) (d0 : Bytes) :
    buildTree hf [d0] = .ok (.leaf d0) := by
  simp [buildTree, buildLoop]

theorem buildTree_two (hf : Bytes → Bytes) (d0 d1 : Bytes) :
    buildTree hf [d0, d1] = .ok (.inner (.leaf d0) (.leaf d1) (hf (d0 ++ d1))) := by
  simp [buildTree, buildLoop, combineLevel, Node.Data]

theorem buildTree_three (hf : Bytes → Bytes) (d0 d1 d2 : Bytes) :
    buildTree hf [d0, d1, d2] = .ok (.inner (.inner (.leaf d0) (.leaf d1) (hf (d0 ++ d1)))
      (.leaf d2) (hf (hf (d0 ++ d1) ++ d2))) := by
  simp [buildTree, buildLoop, combineLevel, Node.Data]

/-! ## Search for a digest -/

theorem Data_mem_digests : ∀ t : Node, t.Data ∈ t.digests
  | .leaf _ => by simp [Node.Data, Node.digests]
  | .inner _ _ _ => by simp [Node.Data, Node.digests]

/-- Without a node of the wanted digest, `updateNode` returns false and the
tree it leaves is the tree it was given. -/
theorem updateNode_of_not_mem (n o : Bytes) (hf : Bytes → Bytes) :
    ∀ t : Node, o ∉ t.digests → t.updateNode n o hf = (t, false)
  | .leaf d, h => by
    have hd : d ≠ o := fun e => h (by simp [Node.digests, e])
    simp [Node.updateNode, hd]
  | .inner l r d, h => by
    simp only [Node.digests, List.mem_cons, List.mem_append, not_or] at h
    have hd : d ≠ o := fun e => h.1 e.symm
    simp [Node.updateNode, hd, updateNode_of_not_mem n o hf l h.2.1,
      updateNode_of_not_mem n o hf r h.2.2]

/-- With a node of the wanted digest, `updateNode` returns true. -/
theorem updateNode_of_mem (n o : Bytes) (hf : Bytes → Bytes) :
    ∀ t : Node, o ∈ t.digests → (t.updateNode n o hf).2 = true
  | .leaf d, h => by
    have hd : d = o := by simpa [Node.digests, eq_comm] using h
    simp [Node.updateNode, hd]
  | .inner l r d, h => by
    by_cases hd : d = o
    · simp [Node.updateNode, hd]
    · simp only [Node.digests, List.mem_cons, List.mem_append] at h
      by_cases hl : o ∈ l.digests
      · simp [Node.updateNode, hd, updateNode_of_mem n o hf l hl]
      · have hr : o ∈ r.digests := by
          rcases h with h | h | h
          · exact absurd h.symm hd
          · exact absurd h hl
          · exact h
        simp [Node.updateNode, hd, updateNode_of_not_mem n o hf l hl,
          updateNode_of_mem n o hf r hr]

/-- Without a node of the wanted digest, `getHashPath` returns nil. -/
theorem getHashPath_of_not_mem (data : Bytes) :
    ∀ (t : Node) (mp : Option (List Bytes)), data ∉ t.digests → t.getHashPath data mp = none
  | .leaf d, mp, h => by
    have hd : d ≠ data := fun e => h (by simp [Node.digests, e])
    simp [Node.getHashPath, hd]
  | .inner l r d, mp, h => by
    simp only [Node.digests, List.mem_cons, List.mem_append, not_or] at h
    have hd : d ≠ data := fun e => h.1 e.symm
    simp [Node.getHashPath, hd, getHashPath_of_not_mem data l _ h.2.1,
      getHashPath_of_not_mem data r _ h.2.2]

/-- Called with a non-nil accumulator on a tree that has a node of the wanted
digest, `getHashPath` returns a non-nil path. -/
theorem getHashPath_of_mem (data : Bytes) :
    ∀ (t : Node) (acc : List Bytes), data ∈ t.digests →
      ∃ q, t.getHashPath data (some acc) = some q
  | .leaf d, acc, h => by
    have hd : d = data := by simpa [Node.digests, eq_comm] using h
    exact ⟨acc, by simp [Node.getHashPath, hd]⟩
  | .inner l r d, acc, h => by
    by_cases hd : d = data
    · exact ⟨acc, by simp [Node.getHashPath, hd]⟩
    · simp only [Node.digests, List.mem_cons, List.mem_append] at h
      by_cases hl : data ∈ l.digests
      · obtain ⟨q, hq⟩ := getHashPath_of_mem data l (r.Data :: acc) hl
        exact ⟨q, by simp [Node.getHashPath, hd, hq]⟩
      · have hr : data ∈ r.digests := by
          rcases h with h | h | h
          · exact absurd h.symm hd
          · exact absurd h hl
          · exact h
        obtain ⟨q, hq⟩ := getHashPath_of_mem data r (l.Data :: acc) hr
        exact ⟨q, by simp [Node.getHashPath, hd, hq, getHashPath_of_not_mem data l _ hl]⟩

/-- What `GetMerklePath` does: it returns nil exactly when no node has the
digest of the data or the root itself has it. -/
theorem GetMerklePath_eq_none_iff (T : MerkleTree) (d : Bytes) :
    T.GetMerklePath d = none ↔
      (T.HashFunction d ∉ T.Root.digests ∨ T.Root.Data = T.HashFunction d) := by
  obtain ⟨root, hf⟩ := T
  simp only [MerkleTree.GetMerklePath]
  constructor
  · intro h
    by_contra hc
    simp only [not_or, not_not] at hc
    cases root with
    | leaf x =>
      have hx : x = hf d := by simpa [Node.digests, eq_comm] using hc.1
      exact hc.2 (by simp [Node.Data, hx])
    | inner l r x =>
      have hx : x ≠ hf d := fun e => hc.2 (by simp [Node.Data, e])
      have hm := hc.1
      simp only [Node.digests, List.mem_cons, List.mem_append] at hm
      by_cases hl : hf d ∈ l.digests
      · obtain ⟨q, hq⟩ := getHashPath_of_mem (hf d) l [r.Data] hl
        simp [Node.getHashPath, hx, hq] at h
      · have hr : hf d ∈ r.digests := by
          rcases hm with h1 | h1 | h1
          · exact absurd h1.symm hx
          · exact absurd h1 hl
          · exact h1
        obtain ⟨q, hq⟩ := getHashPath_of_mem (hf d) r [l.Data] hr
        simp [Node.getHashPath, hx, hq, getHashPath_of_not_mem (hf d) l _ hl] at h
  · rintro (h | h)
    · exact getHashPath_of_not_mem _ _ _ h
    · cases root with
      | leaf x => simp only [Node.Data] at h; simp [Node.getHashPath, h]
      | inner l r x => simp only [Node.Data] at h; simp [Node.getHashPath, h]

/-! ## The verification chain -/

theorem chainInputs_append (h : Bytes) (pre rest : List Bytes) :
    chainInputs h (pre ++ rest) = chainInputs h pre ++
      chainInputs (pre.foldl (fun hash path => Hash (hash ++ path)) h) rest := by
  induction pre generalizing h with
  | nil => rfl
  | cons p ps ih =>
    show (h ++ p) :: chainInputs (Hash (h ++ p)) (ps ++ rest) = _
    rw [ih]
    simp only [chainInputs, List.foldl_cons, List.cons_append]

/-- Two runs of the verification loop over the same entries that end in the
same digest started from the same digest, unless two of the hashed strings
collide. -/
theorem chain_injective (inputs : List Bytes) (hcf : CollisionFreeOn inputs) :
    ∀ (path : List Bytes) (a b : Bytes),
      (∀ x ∈ chainInputs a path, x ∈ inputs) → (∀ x ∈ chainInputs b path, x ∈ inputs) →
      path.foldl (fun hash p => Hash (hash ++ p)) a
        = path.foldl (fun hash p => Hash (hash ++ p)) b → a = b
  | [], _, _, _, _, h => h
  | p :: ps, a, b, ha, hb, h => by
    simp only [List.foldl_cons] at h
    have h1 := chain_injective inputs hcf ps _ _
      (fun x hx => ha x (by simp only [chainInputs]; exact List.mem_cons_of_mem _ hx))
      (fun x hx => hb x (by simp only [chainInputs]; exact List.mem_cons_of_mem _ hx)) h
    have h2 := hcf _ (ha _ (by simp only [chainInputs]; exact List.mem_cons_self _ _))
      _ (hb _ (by simp only [chainInputs]; exact List.mem_cons_self _ _)) h1
    exact List.append_cancel_right h2

/-! ## Shape, invariant and uniqueness of the built tree -/

theorem buildTree_loop (hf : Bytes → Bytes) (data : List Bytes) (root : Node)
    (h : buildTree hf data = .ok root) :
    data ≠ [] ∧ buildLoop hf data.length (data.map Node.leaf) = some [root] := by
  have hne : data ≠ [] := by
    rintro rfl
    simp [buildTree, buildLoop] at h
  obtain ⟨root2, hloop, hok⟩ := buildTree_ok hf data hne
  rw [hok] at h
  cases h
  exact ⟨hne, hloop⟩

theorem shape_combineLevel (hf : Bytes → Bytes) :
    ∀ nodes : List Node, (combineLevel hf nodes).map Node.shape
      = combineLevel (fun _ => []) (nodes.map Node.shape)
  | [] => rfl
  | [_] => rfl
  | l :: r :: rest => by
    simp only [combineLevel, List.map_cons, Node.shape, shape_combineLevel hf rest]

theorem shape_buildLoop (hf : Bytes → Bytes) :
    ∀ (fuel : Nat) (nodes r : List Node), buildLoop hf fuel nodes = some r →
      buildLoop (fun _ => []) fuel (nodes.map Node.shape) = some (r.map Node.shape)
  | 0, nodes, r, h => by
    by_cases hlen : nodes.length > 1
    · simp [buildLoop, hlen] at h
    · simp [buildLoop, hlen] at h
      subst h
      simp [buildLoop, hlen]
  | fuel + 1, nodes, r, h => by
    by_cases hlen : nodes.length > 1
    · simp only [buildLoop, hlen, if_true] at h
      have := shape_buildLoop hf fuel _ r h
      rw [shape_combineLevel] at this
      simp [buildLoop, hlen, this]
    · simp [buildLoop, hlen] at h
      subst h
      simp [buildLoop, hlen]

theorem map_shape_leaf (data : List Bytes) :
    (data.map Node.leaf).map Node.shape = List.replicate data.length (Node.leaf []) := by
  induction data with
  | nil => rfl
  | cons d ds ih =>
    simp only [List.map_cons, List.length_cons, List.replicate_succ, Node.shape, ih]

/-- The shape of the built tree depends on the number of leaves only. -/
theorem buildTree_shape (hf hf2 : Bytes → Bytes) (data data2 : List Bytes) (root root2 : Node)
    (h : buildTree hf data = .ok root) (h2 : buildTree hf2 data2 = .ok root2)
    (hlen : data.length = data2.length) : root.shape = root2.shape := by
  have e := shape_buildLoop hf _ _ _ (buildTree_loop hf data root h).2
  have e2 := shape_buildLoop hf2 _ _ _ (buildTree_loop hf2 data2 root2 h2).2
  rw [map_shape_leaf] at e e2
  rw [hlen, e2] at e
  simpa using e.symm

theorem merkle_combineLevel (hf : Bytes → Bytes) :
    ∀ nodes : List Node, (∀ n ∈ nodes, n.Merkle hf) → ∀ n ∈ combineLevel hf nodes, n.Merkle hf
  | [], _ => by simp [combineLevel]
  | [x], h => by simpa [combineLevel] using h
  | l :: r :: rest, h => by
    intro n hn
    simp only [combineLevel, List.mem_cons] at hn
    rcases hn with rfl | hn
    · exact ⟨rfl, h l (by simp), h r (by simp)⟩
    · exact merkle_combineLevel hf rest
        (fun m hm => h m (List.mem_cons_of_mem _ (List.mem_cons_of_mem _ hm))) n hn

/-- The built tree satisfies the Merkle invariant. -/
theorem buildTree_merkle (hf : Bytes → Bytes) (data : List Bytes) (root : Node)
    (h : buildTree hf data = .ok root) : root.Merkle hf := by
  have := buildLoop_keeps hf (fun ns => ∀ n ∈ ns, n.Merkle hf) (merkle_combineLevel hf)
    data.length _ _ (by
      intro n hn
      obtain ⟨d, _, rfl⟩ := List.mem_map.mp hn
      exact True.intro) (buildTree_loop hf data root h).2
  exact this root (by simp)

theorem leaves_length_shape :
    ∀ t : Node, (t.getLeafNodeData []).length = (t.shape.getLeafNodeData []).length
  | .leaf _ => by simp [Node.shape, Node.getLeafNodeData]
  | .inner l r _ => by
    simp only [Node.shape, getLeafNodeData_inner, List.length_append,
      leaves_length_shape l, leaves_length_shape r]

/-- Two trees of the same shape and the same leaves that both satisfy the
Merkle invariant are the same tree. -/
theorem merkle_unique (hf : Bytes → Bytes) :
    ∀ t u : Node, t.Merkle hf → u.Merkle hf → t.shape = u.shape →
      t.getLeafNodeData [] = u.getLeafNodeData [] → t = u
  | .leaf d, .leaf e, _, _, _, hl => by
    simp only [Node.getLeafNodeData, List.nil_append, List.cons.injEq, and_true] at hl
    rw [hl]
  | .leaf _, .inner _ _ _, _, _, hs, _ => by simp [Node.shape] at hs
  | .inner _ _ _, .leaf _, _, _, hs, _ => by simp [Node.shape] at hs
  | .inner l r d, .inner l2 r2 d2, hm, hm2, hs, hl => by
    simp only [Node.shape, Node.inner.injEq, and_true] at hs
    rw [getLeafNodeData_inner, getLeafNodeData_inner] at hl
    have hlen : (l.getLeafNodeData []).length = (l2.getLeafNodeData []).length := by
      rw [leaves_length_shape l, leaves_length_shape l2, hs.1]
    obtain ⟨hl1, hl2⟩ := List.append_inj hl hlen
    have el := merkle_unique hf l l2 hm.2.1 hm2.2.1 hs.1 hl1
    have er := merkle_unique hf r r2 hm.2.2 hm2.2.2 hs.2 hl2
    subst el er
    rw [hm.1, hm2.1]

/-! ## Update of a leaf -/

theorem replaceFirst_length (o n : Bytes) :
    ∀ xs : List Bytes, (replaceFirst o n xs).length = xs.length
  | [] => rfl
  | x :: xs => by
    by_cases hx : x = o
    · simp [replaceFirst, hx]
    · simp [replaceFirst, hx, replaceFirst_length o n xs]

theorem replaceFirst_of_not_mem (o n : Bytes) :
    ∀ xs : List Bytes, o ∉ xs → replaceFirst o n xs = xs
  | [], _ => rfl
  | x :: xs, h => by
    simp only [List.mem_cons, not_or] at h
    have hx : x ≠ o := fun e => h.1 e.symm
    simp [replaceFirst, hx, replaceFirst_of_not_mem o n xs h.2]

theorem replaceFirst_append_of_mem (o n : Bytes) (ys : List Bytes) :
    ∀ xs : List Bytes, o ∈ xs → replaceFirst o n (xs ++ ys) = replaceFirst o n xs ++ ys
  | [], h => by simp at h
  | x :: xs, h => by
    by_cases hx : x = o
    · simp [replaceFirst, hx]
    · have hm : o ∈ xs := by
        rcases List.mem_cons.mp h with e | e
        · exact absurd e.symm hx
        · exact e
      simp [replaceFirst, hx, replaceFirst_append_of_mem o n ys xs hm]

theorem replaceFirst_append_of_not_mem (o n : Bytes) (ys : List Bytes) :
    ∀ xs : List Bytes, o ∉ xs → replaceFirst o n (xs ++ ys) = xs ++ replaceFirst o n ys
  | [], _ => rfl
  | x :: xs, h => by
    simp only [List.mem_cons, not_or] at h
    have hx : x ≠ o := fun e => h.1 e.symm
    simp [replaceFirst, hx, replaceFirst_append_of_not_mem o n ys xs h.2]

theorem mem_digests_iff (o : Bytes) :
    ∀ t : Node, o ∈ t.digests ↔ (o ∈ t.getLeafNodeData [] ∨ o ∈ t.innerDigests)
  | .leaf d => by simp [Node.digests, Node.getLeafNodeData, Node.innerDigests]
  | .inner l r d => by
    simp only [Node.digests, Node.innerDigests, getLeafNodeData_inner, List.mem_cons,
      List.mem_append, mem_digests_iff o l, mem_digests_iff o r]
    tauto

/-- When the wanted digest is the digest of no node with children,
`updateNode` keeps the shape and the Merkle invariant, replaces the first leaf
of that digest, and returns whether there was one. -/
theorem updateNode_leaf_only (n o : Bytes) (hf : Bytes → Bytes) :
    ∀ t : Node, o ∉ t.innerDigests →
      (t.updateNode n o hf).1.shape = t.shape ∧
      (t.updateNode n o hf).1.getLeafNodeData [] = replaceFirst o n (t.getLeafNodeData []) ∧
      (t.Merkle hf → (t.updateNode n o hf).1.Merkle hf) ∧
      ((t.updateNode n o hf).2 = true ↔ o ∈ t.getLeafNodeData [])
  | .leaf d, _ => by
    by_cases hd : d = o
    · simp [Node.updateNode, hd, Node.shape, Node.getLeafNodeData, replaceFirst, Node.Merkle]
    · have hd2 : o ≠ d := fun e => hd e.symm
      simp [Node.updateNode, hd, hd2, Node.shape, Node.getLeafNodeData, replaceFirst]
  | .inner l r d, h => by
    simp only [Node.innerDigests, List.mem_cons, List.mem_append, not_or] at h
    have hd : d ≠ o := fun e => h.1 e.symm
    obtain ⟨ls, ll, lm, lb⟩ := updateNode_leaf_only n o hf l h.2.1
    obtain ⟨rs, rl, rm, rb⟩ := updateNode_leaf_only n o hf r h.2.2
    by_cases hl : o ∈ l.getLeafNodeData []
    · have hb := lb.mpr hl
      have e : (Node.inner l r d).updateNode n o hf =
          (.inner (l.updateNode n o hf).1 r (hf ((l.updateNode n o hf).1.Data ++ r.Data)),
            true) := by
        simp [Node.updateNode, hd, hb]
      rw [e]
      refine ⟨?_, ?_, ?_, ?_⟩
      · simp only [Node.shape, ls]
      · rw [getLeafNodeData_inner, getLeafNodeData_inner, ll]
        exact (replaceFirst_append_of_mem o n _ _ hl).symm
      · intro hm
        exact ⟨rfl, lm hm.2.1, hm.2.2⟩
      · simp [getLeafNodeData_inner, hl]
    · have hnl : o ∉ l.digests := fun hm =>
        ((mem_digests_iff o l).mp hm).elim hl h.2.1
      have el := updateNode_of_not_mem n o hf l hnl
      by_cases hr : o ∈ r.getLeafNodeData []
      · have hb := rb.mpr hr
        have e : (Node.inner l r d).updateNode n o hf =
            (.inner l (r.updateNode n o hf).1 (hf (l.Data ++ (r.updateNode n o hf).1.Data)),
              true) := by
          simp [Node.updateNode, hd, el, hb]
        rw [e]
        refine ⟨?_, ?_, ?_, ?_⟩
        · simp only [Node.shape, rs]
        · rw [getLeafNodeData_inner, getLeafNodeData_inner, rl]
          exact (replaceFirst_append_of_not_mem o n _ _ hl).symm
        · intro hm
          exact ⟨rfl, hm.2.1, rm hm.2.2⟩
        · simp [getLeafNodeData_inner, hr]
      · have hnr : o ∉ r.digests := fun hm =>
          ((mem_digests_iff o r).mp hm).elim hr h.2.2
        have er := updateNode_of_not_mem n o hf r hnr
        have e : (Node.inner l r d).updateNode n o hf = (.inner l r d, false) := by
          simp [Node.updateNode, hd, el, er]
        rw [e]
        refine ⟨rfl, ?_, fun hm => hm, ?_⟩
        · rw [getLeafNodeData_inner, replaceFirst_append_of_not_mem o n _ _ hl,
            replaceFirst_of_not_mem o n _ hr]
        · simp [getLeafNodeData_inner, hl, hr]

/-- When the wanted digest is the digest of no node with children of the built
tree, the tree `updateNode` leaves is the tree built from the leaf digests with
the first occurrence replaced. -/
theorem updateNode_eq_buildTree (hf : Bytes → Bytes) (data : List Bytes) (n o : Bytes)
    (root : Node) (h : buildTree hf data = .ok root) (hin : o ∉ root.innerDigests) :
    buildTree hf (replaceFirst o n data) = .ok (root.updateNode n o hf).1 := by
  obtain ⟨hne, _⟩ := buildTree_loop hf data root h
  have hne2 : replaceFirst o n data ≠ [] := by
    intro e
    have := replaceFirst_length o n data
    rw [e] at this
    exact hne (List.length_eq_zero.mp this.symm)
  obtain ⟨root2, _, hok⟩ := buildTree_ok hf (replaceFirst o n data) hne2
  obtain ⟨us, ul, um, _⟩ := updateNode_leaf_only n o hf root hin
  have e : root2 = (root.updateNode n o hf).1 :=
    merkle_unique hf _ _ (buildTree_merkle hf _ _ hok) (um (buildTree_merkle hf _ _ h))
      ((buildTree_shape hf hf _ _ _ _ hok h (replaceFirst_length o n data)).trans us.symm)
      ((buildTree_leaves hf _ _ hok).trans (by rw [ul, buildTree_leaves hf _ _ h]))
  rw [hok, e]

theorem replaceFirst_map_set (F : Bytes → Bytes) (old new : Bytes) :
    ∀ (blocks : List Bytes) (i : Nat), blocks[i]? = some old →
      (∀ j, j < i → ∀ b, blocks[j]? = some b → F b ≠ F old) →
      replaceFirst (F old) (F new) (blocks.map F) = (blocks.set i new).map F
  | [], i, hi, _ => by simp at hi
  | x :: xs, 0, hi, _ => by
    simp only [List.getElem?_cons_zero, Option.some.injEq] at hi
    simp [replaceFirst, hi]
  | x :: xs, i + 1, hi, hfirst => by
    have hx : F x ≠ F old := hfirst 0 (Nat.succ_pos i) x (by simp)
    have hi2 : xs[i]? = some old := by simpa using hi
    have := replaceFirst_map_set F old new xs i hi2
      (fun j hj b hb => hfirst (j + 1) (Nat.succ_lt_succ hj) b (by simpa using hb))
    simp [replaceFirst, hx, this]

/-! ## Bottom-up build and top-down split -/

theorem combineLevel_short (hf : Bytes → Bytes) :
    ∀ nodes : List Node, nodes.length ≤ 1 → combineLevel hf nodes = nodes
  | [], _ => rfl
  | [_], _ => rfl
  | _ :: _ :: _, h => by simp at h

theorem passes_short (hf : Bytes → Bytes) :
    ∀ (j : Nat) (nodes : List Node), nodes.length ≤ 1 → passes hf j nodes = nodes
  | 0, _, _ => rfl
  | j + 1, nodes, h => by
    simp only [passes, combineLevel_short hf nodes h]
    exact passes_short hf j nodes h

theorem passes_add (hf : Bytes → Bytes) :
    ∀ (i j : Nat) (nodes : List Node), passes hf (i + j) nodes = passes hf j (passes hf i nodes)
  | 0, j, nodes => by simp [passes]
  | i + 1, j, nodes => by
    have : i + 1 + j = (i + j) + 1 := by omega
    rw [this]
    simp only [passes]
    exact passes_add hf i j _

/-- Two numbers of passes that both leave at most one node leave the same
list. -/
theorem passes_stable (hf : Bytes → Bytes) (a b : Nat) (nodes : List Node)
    (ha : (passes hf a nodes).length ≤ 1) (hb : (passes hf b nodes).length ≤ 1) :
    passes hf a nodes = passes hf b nodes := by
  rcases Nat.le_total a b with h | h
  · obtain ⟨c, rfl⟩ := Nat.exists_eq_add_of_le h
    rw [passes_add, passes_short hf c _ ha]
  · obtain ⟨c, rfl⟩ := Nat.exists_eq_add_of_le h
    rw [passes_add, passes_short hf c _ hb]

/-- Within its bound the loop returns the list after as many passes as the
bound allows. -/
theorem buildLoop_eq_passes (hf : Bytes → Bytes) :
    ∀ (fuel : Nat) (nodes : List Node), nodes.length ≤ fuel + 1 →
      buildLoop hf fuel nodes = some (passes hf fuel nodes)
  | 0, nodes, h => by
    have : ¬ nodes.length > 1 := by omega
    simp [buildLoop, this, passes]
  | fuel + 1, nodes, h => by
    by_cases hlen : nodes.length > 1
    · have hl := combineLevel_length hf nodes
      have hle : (combineLevel hf nodes).length ≤ fuel + 1 := by omega
      simp only [buildLoop, hlen, if_true, passes]
      exact buildLoop_eq_passes hf fuel _ hle
    · have hs : nodes.length ≤ 1 := by omega
      simp only [buildLoop, hlen, if_false, passes_short hf _ nodes hs]

theorem combineLevel_append (hf : Bytes → Bytes) (ys : List Node) :
    ∀ xs : List Node, xs.length % 2 = 0 →
      combineLevel hf (xs ++ ys) = combineLevel hf xs ++ combineLevel hf ys
  | [], _ => rfl
  | [_], h => by simp at h
  | l :: r :: rest, h => by
    have hr : rest.length % 2 = 0 := by
      simp only [List.length_cons] at h
      omega
    show Node.inner l r (hf (l.Data ++ r.Data)) :: combineLevel hf (rest ++ ys) = _
    rw [combineLevel_append hf ys rest hr]
    rfl

theorem passes_append (hf : Bytes → Bytes) :
    ∀ (j : Nat) (xs ys : List Node), xs.length = 2 ^ j →
      passes hf j (xs ++ ys) = passes hf j xs ++ passes hf j ys
  | 0, _, _, _ => rfl
  | j + 1, xs, ys, h => by
    have hp : 2 ^ (j + 1) = 2 * 2 ^ j := by rw [Nat.pow_succ]; omega
    have he : xs.length % 2 = 0 := by omega
    have hl := combineLevel_length hf xs
    simp only [passes, combineLevel_append hf ys xs he]
    exact passes_append hf j _ _ (by omega)

theorem passes_length_one (hf : Bytes → Bytes) :
    ∀ (j : Nat) (nodes : List Node), 0 < nodes.length → nodes.length ≤ 2 ^ j →
      (passes hf j nodes).length = 1
  | 0, nodes, h0, h => by
    simp only [passes]
    simp only [Nat.pow_zero] at h
    omega
  | j + 1, nodes, h0, h => by
    have hp : 2 ^ (j + 1) = 2 * 2 ^ j := by rw [Nat.pow_succ]; omega
    have hl := combineLevel_length hf nodes
    simp only [passes]
    exact passes_length_one hf j _ (by omega) (by omega)

/-- The tree `buildTree` returns is the single node left after enough
passes. -/
theorem buildTree_eq_passes (hf : Bytes → Bytes) (data : List Bytes) (j : Nat)
    (h0 : data ≠ []) (h : data.length ≤ 2 ^ j) :
    ∃ root, passes hf j (data.map Node.leaf) = [root] ∧ buildTree hf data = .ok root := by
  obtain ⟨root, hloop, hok⟩ := buildTree_ok hf data h0
  rw [buildLoop_eq_passes hf _ _ (by simp)] at hloop
  have hpos : 0 < (data.map Node.leaf).length := by
    simpa using List.length_pos.mpr h0
  have h1 := passes_length_one hf j (data.map Node.leaf) hpos (by simpa using h)
  have h2 : passes hf data.length (data.map Node.leaf) = [root] := by simpa using hloop
  have := passes_stable hf j data.length (data.map Node.leaf) (by omega) (by simp [h2])
  exact ⟨root, this.trans h2, hok⟩

/-- The bottom-up build is the top-down split at the largest power of two
below the number of leaves. -/
theorem buildTree_split (hf : Bytes → Bytes) (data : List Bytes) (j : Nat)
    (h1 : 2 ^ j < data.length) (h2 : data.length ≤ 2 ^ (j + 1)) :
    ∃ l r, buildTree hf (data.take (2 ^ j)) = .ok l ∧ buildTree hf (data.drop (2 ^ j)) = .ok r ∧
      buildTree hf data = .ok (.inner l r (hf (l.Data ++ r.Data))) := by
  have hp : 2 ^ (j + 1) = 2 * 2 ^ j := by rw [Nat.pow_succ]; omega
  have hpos : 0 < 2 ^ j := Nat.two_pow_pos j
  have htl : (data.take (2 ^ j)).length = 2 ^ j := by
    rw [List.length_take]; omega
  have hdl : (data.drop (2 ^ j)).length = data.length - 2 ^ j := List.length_drop _ _
  have ht0 : data.take (2 ^ j) ≠ [] := by
    intro e; rw [e] at htl; simp at htl; omega
  have hd0 : data.drop (2 ^ j) ≠ [] := by
    intro e; rw [e] at hdl; simp at hdl; omega
  have hn0 : data ≠ [] := by
    rintro rfl
    simp at h1
  obtain ⟨l, hl, hlok⟩ := buildTree_eq_passes hf _ j ht0 (by omega)
  obtain ⟨r, hr, hrok⟩ := buildTree_eq_passes hf _ j hd0 (by omega)
  obtain ⟨root, hroot, hok⟩ := buildTree_eq_passes hf data (j + 1) hn0 h2
  refine ⟨l, r, hlok, hrok, ?_⟩
  have hsplit : data.map Node.leaf =
      (data.take (2 ^ j)).map Node.leaf ++ (data.drop (2 ^ j)).map Node.leaf := by
    rw [← List.map_append, List.take_append_drop]
  have h3 : passes hf (j + 1) (data.map Node.leaf) = [.inner l r (hf (l.Data ++ r.Data))] := by
    have : j + 1 = j + 1 := rfl
    rw [passes_add hf j 1, hsplit, passes_append hf j _ _ (by simpa using htl), hl, hr]
    rfl
  rw [h3] at hroot
  simp only [List.cons.injEq, and_true] at hroot
  rw [hok, ← hroot]

/-! ## Depth -/

theorem getMaxDepth_inner (l r : Node) (d : Bytes) :
    (Node.inner l r d).getMaxDepth = max l.getMaxDepth r.getMaxDepth + 1 := by
  simp only [Node.getMaxDepth]
  by_cases h : l.getMaxDepth > r.getMaxDepth
  · simp only [h, if_true]; omega
  · simp only [h, if_false]; omega

theorem getMaxDepth_pos : ∀ t : Node, 1 ≤ t.getMaxDepth
  | .leaf _ => by simp [Node.getMaxDepth]
  | .inner l r d => by rw [getMaxDepth_inner]; omega

theorem exists_split_index (n : Nat) (h : 2 ≤ n) : ∃ j, 2 ^ j < n ∧ n ≤ 2 ^ (j + 1) := by
  refine ⟨Nat.log 2 (n - 1), ?_, ?_⟩
  · have := Nat.pow_log_le_self 2 (x := n - 1) (by omega)
    omega
  · have := Nat.lt_pow_succ_log_self (b := 2) (by omega) (n - 1)
    omega

theorem length_pos_of_buildTree (hf : Bytes → Bytes) (data : List Bytes) (root : Node)
    (h : buildTree hf data = .ok root) : 0 < data.length :=
  List.length_pos.mpr (buildTree_loop hf data root h).1

/-- A tree built from at most `2 ^ k` digests has depth at most `1 + k`. -/
theorem getMaxDepth_le (hf : Bytes → Bytes) :
    ∀ (k : Nat) (data : List Bytes) (root : Node), buildTree hf data = .ok root →
      data.length ≤ 2 ^ k → root.getMaxDepth ≤ 1 + k
  | 0, data, root, h, hk => by
    have hpos := length_pos_of_buildTree hf data root h
    match data, h, hk, hpos with
    | [x], h, _, _ =>
      rw [buildTree_one] at h
      cases h
      simp [Node.getMaxDepth]
    | [], _, _, hpos => simp at hpos
    | _ :: _ :: _, _, hk, _ => simp at hk
  | k + 1, data, root, h, hk => by
    by_cases hs : data.length ≤ 2 ^ k
    · have := getMaxDepth_le hf k data root h hs
      omega
    · obtain ⟨l, r, hl, hr, hroot⟩ := buildTree_split hf data k (by omega) hk
      rw [hroot] at h
      cases h
      have hp : 2 ^ (k + 1) = 2 * 2 ^ k := by rw [Nat.pow_succ]; omega
      have h1 := getMaxDepth_le hf k _ l hl (by rw [List.length_take]; omega)
      have h2 := getMaxDepth_le hf k _ r hr (by rw [List.length_drop]; omega)
      rw [getMaxDepth_inner]
      omega

/-- A tree built from more than `2 ^ k` digests is deeper than `1 + k`, given
that trees built from at least `2 ^ k` digests have depth at least `1 + k`. -/
theorem getMaxDepth_gt_of (hf : Bytes → Bytes) (k : Nat)
    (ih : ∀ (data : List Bytes) (root : Node), buildTree hf data = .ok root →
      2 ^ k ≤ data.length → 1 + k ≤ root.getMaxDepth)
    (data : List Bytes) (root : Node) (h : buildTree hf data = .ok root)
    (hk : 2 ^ k < data.length) : 2 + k ≤ root.getMaxDepth := by
  have hpos : 0 < 2 ^ k := Nat.two_pow_pos k
  obtain ⟨j, hj1, hj2⟩ := exists_split_index data.length (by omega)
  have hkj : k ≤ j := by
    by_contra hc
    have : 2 ^ (j + 1) ≤ 2 ^ k := Nat.pow_le_pow_right (by omega) (by omega)
    omega
  have hpow : 2 ^ k ≤ 2 ^ j := Nat.pow_le_pow_right (by omega) hkj
  obtain ⟨l, r, hl, hr, hroot⟩ := buildTree_split hf data j hj1 hj2
  rw [hroot] at h
  cases h
  have h1 := ih _ l hl (by rw [List.length_take]; omega)
  rw [getMaxDepth_inner]
  omega

theorem getMaxDepth_ge (hf : Bytes → Bytes) :
    ∀ (k : Nat) (data : List Bytes) (root : Node), buildTree hf data = .ok root →
      2 ^ k ≤ data.length → 1 + k ≤ root.getMaxDepth
  | 0, _, root, _, _ => getMaxDepth_pos root
  | k + 1, data, root, h, hk => by
    have hp : 2 ^ (k + 1) = 2 * 2 ^ k := by rw [Nat.pow_succ]; omega
    have hpos : 0 < 2 ^ k := Nat.two_pow_pos k
    have := getMaxDepth_gt_of hf k (getMaxDepth_ge hf k) data root h (by omega)
    omega

/-- The depth of the built tree is `1 + k` for the least `k` with
`len(data) ≤ 2 ^ k`. -/
theorem getMaxDepth_buildTree (hf : Bytes → Bytes) (data : List Bytes) (root : Node) (k : Nat)
    (h : buildTree hf data = .ok root) (hk : data.length ≤ 2 ^ k)
    (hmin : ∀ i, i < k → 2 ^ i < data.length) : root.getMaxDepth = 1 + k := by
  have hle := getMaxDepth_le hf k data root h hk
  cases k with
  | zero =>
    have := getMaxDepth_pos root
    omega
  | succ j =>
    have := getMaxDepth_gt_of hf j (getMaxDepth_ge hf j) data root h (hmin j (by omega))
    omega

/-! ## The path of the leftmost leaf -/

theorem leaves_leftmost :
    ∀ t : Node, ∃ rest, t.getLeafNodeData [] = t.leftmost :: rest
  | .leaf d => ⟨[], by simp [Node.getLeafNodeData, Node.leftmost]⟩
  | .inner l r d => by
    obtain ⟨rest, h⟩ := leaves_leftmost l
    exact ⟨rest ++ r.getLeafNodeData [], by
      rw [getLeafNodeData_inner, h]; rfl⟩

/-- In a tree with the Merkle invariant the search for the digest of the
leftmost leaf, started with a non-nil accumulator, returns siblings that hash
up from that digest to the digest of the tree, followed by the accumulator. -/
theorem getHashPath_leftmost (hf : Bytes → Bytes) :
    ∀ (t : Node) (acc : List Bytes), t.Merkle hf →
      ∃ q, t.getHashPath t.leftmost (some acc) = some (q ++ acc) ∧
        q.foldl (fun hash path => hf (hash ++ path)) t.leftmost = t.Data
  | .leaf d, acc, _ => ⟨[], by simp [Node.getHashPath, Node.leftmost], rfl⟩
  | .inner l r d, acc, hm => by
    by_cases hd : d = l.leftmost
    · exact ⟨[], by simp [Node.getHashPath, Node.leftmost, hd],
        by simp [Node.leftmost, Node.Data, hd]⟩
    · obtain ⟨q, hq, hfold⟩ := getHashPath_leftmost hf l (r.Data :: acc) hm.2.1
      refine ⟨q ++ [r.Data], ?_, ?_⟩
      · simp [Node.getHashPath, Node.leftmost, hd, hq]
      · simp only [Node.leftmost, List.foldl_append, hfold, List.foldl_cons, List.foldl_nil,
          Node.Data]
        exact hm.1.symm

/-- The same search started with the nil accumulator, as `GetMerklePath`
starts it. -/
theorem getHashPath_leftmost_nil (hf : Bytes → Bytes) (t : Node) (hm : t.Merkle hf) :
    ((t.getHashPath t.leftmost none).getD []).foldl (fun hash path => hf (hash ++ path))
      t.leftmost = t.Data := by
  cases t with
  | leaf d => simp [Node.getHashPath, Node.leftmost, Node.Data]
  | inner l r d =>
    by_cases hd : d = l.leftmost
    · simp [Node.getHashPath, Node.leftmost, Node.Data, hd]
    · obtain ⟨q, hq, hfold⟩ := getHashPath_leftmost hf l [r.Data] hm.2.1
      have e : (Node.inner l r d).getHashPath (Node.inner l r d).leftmost none
          = some (q ++ [r.Data]) := by
        simp [Node.getHashPath, Node.leftmost, hd, hq]
      rw [e]
      simp only [Option.getD_some, Node.leftmost, List.foldl_append, hfold, List.foldl_cons,
        List.foldl_nil, Node.Data]
      exact hm.1.symm

/-! ## Update and the Merkle invariant -/

/-- What `updateNode` does to a tree with the Merkle invariant, by the kind of
the first node that has the wanted digest. -/
theorem updateNode_merkle_cases (n o : Bytes) (hf : Bytes → Bytes) :
    ∀ t : Node, t.Merkle hf →
      (t.firstMatchInner o = none → t.updateNode n o hf = (t, false)) ∧
      (t.firstMatchInner o = some false →
        (t.updateNode n o hf).2 = true ∧ (t.updateNode n o hf).1.Merkle hf) ∧
      (t.firstMatchInner o = some true →
        (t.updateNode n o hf).2 = true ∧ ((t.updateNode n o hf).1.Merkle hf ↔ n = o))
  | .leaf d, _ => by
    by_cases hd : d = o
    · simp [Node.firstMatchInner, Node.updateNode, hd, Node.Merkle]
    · simp [Node.firstMatchInner, Node.updateNode, hd]
  | .inner l r d, hm => by
    obtain ⟨ln, lf, lt⟩ := updateNode_merkle_cases n o hf l hm.2.1
    obtain ⟨rn, rf, rt⟩ := updateNode_merkle_cases n o hf r hm.2.2
    by_cases hd : d = o
    · have e : (Node.inner l r d).updateNode n o hf = (.inner l r n, true) := by
        simp [Node.updateNode, hd]
      have hdo : hf (l.Data ++ r.Data) = o := hm.1.symm.trans hd
      rw [e]
      refine ⟨by simp [Node.firstMatchInner, hd], by simp [Node.firstMatchInner, hd],
        fun _ => ⟨rfl, ?_⟩⟩
      constructor
      · intro h
        exact h.1.trans hdo
      · intro h
        exact ⟨h.trans hdo.symm, hm.2.1, hm.2.2⟩
    · cases hl : l.firstMatchInner o with
      | some b =>
        have hfm : (Node.inner l r d).firstMatchInner o = some b := by
          simp [Node.firstMatchInner, hd, hl]
        have hflag : (l.updateNode n o hf).2 = true := by
          cases b
          · exact (lf hl).1
          · exact (lt hl).1
        have e : (Node.inner l r d).updateNode n o hf =
            (.inner (l.updateNode n o hf).1 r (hf ((l.updateNode n o hf).1.Data ++ r.Data)),
              true) := by
          simp [Node.updateNode, hd, hflag]
        rw [e, hfm]
        refine ⟨fun h => by simp at h, fun h => ⟨rfl, ?_⟩, fun h => ⟨rfl, ?_⟩⟩
        · have hb : b = false := by simpa using h
          subst hb
          exact ⟨rfl, (lf hl).2, hm.2.2⟩
        · have hb : b = true := by simpa using h
          subst hb
          constructor
          · intro h2
            exact (lt hl).2.mp h2.2.1
          · intro h2
            exact ⟨rfl, (lt hl).2.mpr h2, hm.2.2⟩
      | none =>
        have el := ln hl
        cases hr : r.firstMatchInner o with
        | some b =>
          have hfm : (Node.inner l r d).firstMatchInner o = some b := by
            simp [Node.firstMatchInner, hd, hl, hr]
          have hflag : (r.updateNode n o hf).2 = true := by
            cases b
            · exact (rf hr).1
            · exact (rt hr).1
          have e : (Node.inner l r d).updateNode n o hf =
              (.inner l (r.updateNode n o hf).1 (hf (l.Data ++ (r.updateNode n o hf).1.Data)),
                true) := by
            simp [Node.updateNode, hd, el, hflag]
          rw [e, hfm]
          refine ⟨fun h => by simp at h, fun h => ⟨rfl, ?_⟩, fun h => ⟨rfl, ?_⟩⟩
          · have hb : b = false := by simpa using h
            subst hb
            exact ⟨rfl, hm.2.1, (rf hr).2⟩
          · have hb : b = true := by simpa using h
            subst hb
            constructor
            · intro h2
              exact (rt hr).2.mp h2.2.2
            · intro h2
              exact ⟨rfl, hm.2.1, (rt hr).2.mpr h2⟩
        | none =>
          have er := rn hr
          have hfm : (Node.inner l r d).firstMatchInner o = none := by
            simp [Node.firstMatchInner, hd, hl, hr]
          have e : (Node.inner l r d).updateNode n o hf = (.inner l r d, false) := by
            simp [Node.updateNode, hd, el, er]
          rw [e, hfm]
          exact ⟨fun _ => rfl, fun h => by simp at h, fun h => by simp at h⟩

/-- After `updateNode` a tree with the Merkle invariant has the invariant
exactly when the first node of the wanted digest is not a node with children,
or the new digest is the old one. -/
theorem updateNode_merkle_iff (n o : Bytes) (hf : Bytes → Bytes) (t : Node)
    (hm : t.Merkle hf) :
    (t.updateNode n o hf).1.Merkle hf ↔ (t.firstMatchInner o ≠ some true ∨ n = o) := by
  obtain ⟨hn, hfl, ht⟩ := updateNode_merkle_cases n o hf t hm
  cases h : t.firstMatchInner o with
  | none =>
    rw [hn h]
    exact ⟨fun _ => Or.inl (by simp), fun _ => hm⟩
  | some b =>
    cases b with
    | false => exact ⟨fun _ => Or.inl (by simp), fun _ => (hfl h).2⟩
    | true =>
      constructor
      · intro h2
        exact Or.inr ((ht h).2.mp h2)
      · rintro (h2 | h2)
        · exact absurd rfl h2
        · exact (ht h).2.mpr h2

/-- A tree the package produced with the default hash function has `Hash` as
its hash function. -/
theorem fromDefaultHash_hash (T : MerkleTree) (h : FromDefaultHash T) :
    T.HashFunction = Hash := by
  induction h with
  | new blocks T hT =>
    have key : ∀ o : Outcome Node,
        (match o with
          | .ok root => Outcome.ok (MerkleTree.mk root Hash)
          | .indexOutOfRange => Outcome.indexOutOfRange
          | .fuelExhausted => Outcome.fuelExhausted) = Outcome.ok T →
        T.HashFunction = Hash := by
      intro o ho
      cases o with
      | ok root => cases ho; rfl
      | indexOutOfRange => cases ho
      | fuelExhausted => cases ho
    exact key _ hT
  | update T newData oldData _ ih => exact ih
  | add T T1 data _ hadd ih =>
    have key : ∀ o : Outcome Node,
        (match o with
          | .ok root => Outcome.ok (MerkleTree.mk root T.HashFunction)
          | .indexOutOfRange => Outcome.indexOutOfRange
          | .fuelExhausted => Outcome.fuelExhausted) = Outcome.ok T1 →
        T1.HashFunction = T.HashFunction := by
      intro o ho
      cases o with
      | ok root => cases ho; rfl
      | indexOutOfRange => cases ho
      | fuelExhausted => cases ho
    exact (key _ hadd).trans ih

/-! ## Settled claims -/

/-- C4, the code at the failing input: `buf` holds "helloworld" in an array of
10 bytes, the blocks are `buf[0:3]` and `buf[5:10]`, which show "hel" and
"world", and the hash function returns its argument.  The `append` of line 59
stores "world" behind "hel" in `buf`, and the second leaf of the returned tree
shows "rldld", not `F("world")`. -/
theorem C4_shared_array_leaf_overwritten (spare : Nat → Nat → Nat) :
    ∃ T heap, Mem.NewMerkleTree spare [bytesOf "helloworld"] [⟨0, 0, 3, 10⟩, ⟨0, 5, 5, 5⟩]
        [Mem.identity] = .ok (T, heap) ∧
      [⟨0, 0, 3, 10⟩, ⟨0, 5, 5, 5⟩].map (Mem.read [bytesOf "helloworld"])
        = [bytesOf "hel", bytesOf "world"] ∧
      T.GetLeafNodeData.map (Mem.read heap) = [bytesOf "hel", bytesOf "rldld"] :=
  ⟨_, _, rfl, rfl, rfl⟩

/-- C5. Path content and order: for four blocks the tree is the complete tree
of depth 3, and when `Hash(b0)` differs from the digest of the root and from
the digest of the left child of the root, `GetMerklePath(b0)` is the 2-entry
list `[Hash(b1), Hash(Hash(b2) ++ Hash(b3))]`. -/
theorem C5_path_content_and_order (b0 b1 b2 b3 : Bytes)
    (hroot : Hash b0 ≠ Hash (Hash (Hash b0 ++ Hash b1) ++ Hash (Hash b2 ++ Hash b3)))
    (hleft : Hash b0 ≠ Hash (Hash b0 ++ Hash b1)) :
    ∃ T, NewMerkleTree [b0, b1, b2, b3] [] = .ok T ∧
      T.Root = .inner
        (.inner (.leaf (Hash b0)) (.leaf (Hash b1)) (Hash (Hash b0 ++ Hash b1)))
        (.inner (.leaf (Hash b2)) (.leaf (Hash b3)) (Hash (Hash b2 ++ Hash b3)))
        (Hash (Hash (Hash b0 ++ Hash b1) ++ Hash (Hash b2 ++ Hash b3))) ∧
      T.GetMerklePath b0 = some [Hash b1, Hash (Hash b2 ++ Hash b3)] :=
  ⟨⟨_, Hash⟩, NewMerkleTree_ok _ [] _ (buildTree_four Hash _ _ _ _), rfl,
    getHashPath_four _ _ _ _ _ _ _ (Ne.symm hroot) (Ne.symm hleft)⟩

/-- Witness of C5 on the blocks of `TestGetMerklePath`. -/
theorem C5_path_content_and_order_witness :
    ∃ T, NewMerkleTree [hello, world, foo, bar] [] = .ok T ∧
      T.Root = .inner
        (.inner (.leaf (Hash hello)) (.leaf (Hash world)) (Hash (Hash hello ++ Hash world)))
        (.inner (.leaf (Hash foo)) (.leaf (Hash bar)) (Hash (Hash foo ++ Hash bar)))
        (Hash (Hash (Hash hello ++ Hash world) ++ Hash (Hash foo ++ Hash bar))) ∧
      T.GetMerklePath hello = some [Hash world, Hash (Hash foo ++ Hash bar)] :=
  C5_path_content_and_order hello world foo bar (by decide) (by decide)

/-- C6. Update failure is a no-op: `UpdateMerkleTree(new, old)` returns false
if and only if no node of the tree has the digest `HashFunction(old)`, and
whenever it returns false the tree after the call is the tree before it. -/
theorem C6_update_failure_is_noop (T : MerkleTree) (newData oldData : Bytes) :
    ((T.UpdateMerkleTree newData oldData).2 = false ↔
      T.HashFunction oldData ∉ T.Root.digests) ∧
    ((T.UpdateMerkleTree newData oldData).2 = false →
      (T.UpdateMerkleTree newData oldData).1 = T) := by
  have hiff : (T.UpdateMerkleTree newData oldData).2 = false ↔
      T.HashFunction oldData ∉ T.Root.digests := by
    constructor
    · intro h hm
      have := updateNode_of_mem (T.HashFunction newData) (T.HashFunction oldData)
        T.HashFunction T.Root hm
      simp only [MerkleTree.UpdateMerkleTree] at h
      rw [h] at this
      exact Bool.noConfusion this
    · intro h
      simp [MerkleTree.UpdateMerkleTree, updateNode_of_not_mem _ _ _ T.Root h]
  refine ⟨hiff, fun h => ?_⟩
  have hn := hiff.mp h
  simp [MerkleTree.UpdateMerkleTree, updateNode_of_not_mem _ _ _ T.Root hn]

/-- Witness of C6: a two-leaf tree under the identity hash function, updated
for a block that no node holds. -/
theorem C6_update_failure_is_noop_witness :
    (MerkleTree.UpdateMerkleTree ⟨.inner (.leaf hello) (.leaf world) (hello ++ world), id⟩
      bar foo).1.Root = .inner (.leaf hello) (.leaf world) (hello ++ world) :=
  congrArg MerkleTree.Root
    ((C6_update_failure_is_noop
      ⟨.inner (.leaf hello) (.leaf world) (hello ++ world), id⟩ bar foo).2 (by decide))

/-- C7, the code at the failing input: in the tree of the single block
"hello" the root has the digest `Hash("hello")`, and `GetMerklePath("hello")`
returns nil, the value it also returns when nothing matches (here for
"world"). -/
theorem C7_root_match_returns_nil :
    ∃ T, NewMerkleTree [hello] [] = .ok T ∧
      T.HashFunction hello ∈ T.Root.digests ∧
      T.GetMerklePath hello = none ∧ T.GetMerklePath world = none :=
  ⟨⟨_, Hash⟩, NewMerkleTree_ok _ [] _ (buildTree_one Hash _), Data_mem_digests _,
    (GetMerklePath_eq_none_iff ⟨.leaf (Hash hello), Hash⟩ hello).mpr (Or.inr rfl), by decide⟩

/-- C8. Construction succeeds exactly on non-empty input: on the empty
sequence `NewMerkleTree` ends in the index-out-of-range panic; a pass over `k`
nodes leaves `(k + 1) / 2` nodes, fewer than `k` when `k > 1`; and on every
non-empty sequence the loop exits within its bound with exactly one node, which
is the root of the returned tree. -/
theorem C8_construction_succeeds_on_nonempty :
    (∀ hashDetails, NewMerkleTree [] hashDetails = Outcome.indexOutOfRange) ∧
    (∀ (hf : Bytes → Bytes) (nodes : List Node),
      (combineLevel hf nodes).length = (nodes.length + 1) / 2 ∧
      (1 < nodes.length → (combineLevel hf nodes).length < nodes.length)) ∧
    (∀ (data : List Bytes) (hashDetails : List (Bytes → Bytes)), data ≠ [] →
      ∃ T, NewMerkleTree data hashDetails = .ok T ∧
        buildLoop T.HashFunction data.length ((data.map T.HashFunction).map Node.leaf)
          = some [T.Root]) := by
  refine ⟨fun hashDetails => ?_, fun hf nodes => ?_, fun data hashDetails h => ?_⟩
  · cases hashDetails <;> rfl
  · have hl := combineLevel_length hf nodes
    exact ⟨hl, fun h1 => by omega⟩
  · obtain ⟨root, hloop, hok⟩ := buildTree_ok (chosenHash hashDetails)
      (data.map (chosenHash hashDetails)) (by simpa using h)
    refine ⟨⟨root, chosenHash hashDetails⟩, NewMerkleTree_ok data hashDetails root hok, ?_⟩
    simpa using hloop

/-- Witness of C8 on three blocks: two passes, the odd node carried once. -/
theorem C8_construction_succeeds_on_nonempty_witness :
    ∃ T, NewMerkleTree [hello, world, foo] [] = .ok T ∧
      buildLoop T.HashFunction [hello, world, foo].length
        (([hello, world, foo].map T.HashFunction).map Node.leaf) = some [T.Root] :=
  C8_construction_succeeds_on_nonempty.2.2 [hello, world, foo] [] (by simp)

/-- C10, the code at the failing input: a tree built with the untruncated
`sha256.Sum256` as its hash function; the path of the first block does not
verify, because `VerifyMerklePath` recomputes with `Hash`. -/
theorem C10_custom_hash_path_rejected :
    ∃ T, NewMerkleTree [hello, world] [Sha256.Sum256] = .ok T ∧
      T.GetMerklePath hello = some [Sha256.Sum256 world] ∧
      VerifyMerklePath T.GetRootHash hello (T.GetMerklePath hello) = false :=
  ⟨⟨_, Sha256.Sum256⟩, NewMerkleTree_ok _ [Sha256.Sum256] _ (buildTree_two Sha256.Sum256 _ _),
    by decide, by decide⟩

/-- C1, the code at the failing input: in the tree of the blocks of
`TestVerifyMerklePath`, the path generated for the second block "world" is
`[Hash("hello"), Hash(Hash("foo") ++ Hash("bar"))]` and `VerifyMerklePath`
rejects it; the path of the first block "hello" is accepted. -/
theorem C1_right_leaf_path_rejected :
    ∃ T, NewMerkleTree [hello, world, foo, bar] [] = .ok T ∧
      T.GetMerklePath world = some [Hash hello, Hash (Hash foo ++ Hash bar)] ∧
      VerifyMerklePath T.GetRootHash world (T.GetMerklePath world) = false ∧
      VerifyMerklePath T.GetRootHash hello (T.GetMerklePath hello) = true :=
  ⟨⟨_, Hash⟩, NewMerkleTree_ok _ [] _ (buildTree_four Hash _ _ _ _),
    by decide, by decide, by decide⟩

/-- C9. Tamper detection under collision resistance.  The byte strings that
`VerifyMerklePath` passes to `Hash` are listed by `hashedInputs`; when `Hash`
has no collision among the strings of the two runs compared, a path accepted
for `d` is rejected for every other `d'`, and a path accepted for `d` is
rejected once exactly one of its entries is changed.  (An injective `Hash` has
no collision on any list.) -/
theorem C9_tamper_detection :
    (∀ (root d d' : Bytes) (path : Option (List Bytes)),
      CollisionFreeOn (hashedInputs d (path.getD []) ++ hashedInputs d' (path.getD [])) →
      VerifyMerklePath root d path = true → d' ≠ d →
      VerifyMerklePath root d' path = false) ∧
    (∀ (root d : Bytes) (pre post : List Bytes) (s s' : Bytes),
      CollisionFreeOn (hashedInputs d (pre ++ s :: post) ++ hashedInputs d (pre ++ s' :: post)) →
      VerifyMerklePath root d (some (pre ++ s :: post)) = true → s' ≠ s →
      VerifyMerklePath root d (some (pre ++ s' :: post)) = false) := by
  constructor
  · intro root d d' path hcf hv hne
    simp only [VerifyMerklePath, decide_eq_true_eq] at hv
    simp only [VerifyMerklePath, decide_eq_false_iff_not]
    intro hv'
    have hchain := chain_injective _ hcf (path.getD []) (Hash d) (Hash d')
      (fun x hx => List.mem_append_left _ (List.mem_cons_of_mem _ hx))
      (fun x hx => List.mem_append_right _ (List.mem_cons_of_mem _ hx))
      (hv.trans hv'.symm)
    have := hcf d (List.mem_append_left _ (List.mem_cons_self _ _))
      d' (List.mem_append_right _ (List.mem_cons_self _ _)) hchain
    exact hne this.symm
  · intro root d pre post s s' hcf hv hne
    simp only [VerifyMerklePath, decide_eq_true_eq, Option.getD_some, List.foldl_append,
      List.foldl_cons] at hv
    simp only [VerifyMerklePath, decide_eq_false_iff_not, Option.getD_some, List.foldl_append,
      List.foldl_cons]
    intro hv'
    have hin : ∀ t : Bytes, ∀ x ∈ chainInputs (Hash d) pre ++
        ((List.foldl (fun hash path => Hash (hash ++ path)) (Hash d) pre ++ t) ::
          chainInputs (Hash (List.foldl (fun hash path => Hash (hash ++ path)) (Hash d) pre
            ++ t)) post), x ∈ hashedInputs d (pre ++ t :: post) := by
      intro t x hx
      simp only [hashedInputs, chainInputs_append, chainInputs]
      exact List.mem_cons_of_mem _ hx
    have hstep := chain_injective _ hcf post _ _
      (fun x hx => List.mem_append_left _ (hin s x
        (List.mem_append_right _ (List.mem_cons_of_mem _ hx))))
      (fun x hx => List.mem_append_right _ (hin s' x
        (List.mem_append_right _ (List.mem_cons_of_mem _ hx))))
      (hv.trans hv'.symm)
    have := hcf _ (List.mem_append_left _ (hin s _
        (List.mem_append_right _ (List.mem_cons_self _ _))))
      _ (List.mem_append_right _ (hin s' _
        (List.mem_append_right _ (List.mem_cons_self _ _)))) hstep
    exact hne (List.append_cancel_left this).symm

/-- Witness of C9: the block changed ("world" for "hello" under the root
`Hash("hello")`), and the single path entry changed (`Hash("foo")` for
`Hash("world")`). -/
theorem C9_tamper_detection_witness :
    VerifyMerklePath (Hash hello) world none = false ∧
    VerifyMerklePath (Hash (Hash hello ++ Hash world)) hello (some [Hash foo]) = false :=
  ⟨C9_tamper_detection.1 (Hash hello) hello world none (by decide) (by decide) (by decide),
    C9_tamper_detection.2 (Hash (Hash hello ++ Hash world)) hello [] [] (Hash world) (Hash foo)
      (by decide) (by decide) (by decide)⟩

/-- C2, the claim fails: the third block of `["hello", "world", x]` is the
32 bytes `Hash("hello") ++ Hash("world")`, first occurring at index 2; its
digest is also the digest of the parent of the first two leaves, which the
search meets first and overwrites, so the root after
`UpdateMerkleTree("foo", x)` is not the root of the tree rebuilt from
`["hello", "world", "foo"]`. -/
theorem C2_update_differs_from_rebuild :
    helloWorldDigests = Hash hello ++ Hash world ∧
    [hello, world, helloWorldDigests].indexOf helloWorldDigests = 2 ∧
    ∃ T T2, NewMerkleTree [hello, world, helloWorldDigests] [] = .ok T ∧
      NewMerkleTree ([hello, world, helloWorldDigests].set 2 foo) [] = .ok T2 ∧
      (T.UpdateMerkleTree foo helloWorldDigests).2 = true ∧
      (T.UpdateMerkleTree foo helloWorldDigests).1.GetRootHash ≠ T2.GetRootHash :=
  ⟨by decide, by decide, ⟨_, Hash⟩, ⟨_, Hash⟩,
    NewMerkleTree_ok _ [] _ (buildTree_three Hash _ _ _),
    NewMerkleTree_ok _ [] _ (buildTree_three Hash _ _ _), by decide, by decide⟩

/-- C2 as amended. Update agrees with rebuild: when `old` is the block at index
`i`, no block before index `i` has the digest `Hash(old)`, and no node with
children of `T = NewMerkleTree(blocks)` has the digest `Hash(old)`, then
`T.UpdateMerkleTree(new, old)` returns true and leaves the root node, hence the
root digest, of `NewMerkleTree(blocks with the entry at index i replaced by
new)`. -/
theorem C2_update_agrees_with_rebuild (blocks : List Bytes) (i : Nat) (old new : Bytes)
    (hi : blocks[i]? = some old)
    (hfirst : ∀ j, j < i → ∀ b, blocks[j]? = some b → Hash b ≠ Hash old)
    (hinner : ∀ T, NewMerkleTree blocks [] = .ok T → Hash old ∉ T.Root.innerDigests) :
    ∃ T T2, NewMerkleTree blocks [] = .ok T ∧
      NewMerkleTree (blocks.set i new) [] = .ok T2 ∧
      (T.UpdateMerkleTree new old).2 = true ∧
      (T.UpdateMerkleTree new old).1.Root = T2.Root ∧
      (T.UpdateMerkleTree new old).1.GetRootHash = T2.GetRootHash := by
  have hne : blocks ≠ [] := by
    rintro rfl
    simp at hi
  obtain ⟨root, _, hok⟩ := buildTree_ok Hash (blocks.map Hash) (by simpa using hne)
  have hT := NewMerkleTree_ok blocks [] root hok
  have hin : Hash old ∉ root.innerDigests := hinner _ hT
  have hre := updateNode_eq_buildTree Hash (blocks.map Hash) (Hash new) (Hash old) root hok hin
  rw [replaceFirst_map_set Hash old new blocks i hi hfirst] at hre
  have hmem : Hash old ∈ root.getLeafNodeData [] := by
    rw [buildTree_leaves Hash _ root hok]
    exact List.mem_map.mpr ⟨old, List.getElem?_mem hi, rfl⟩
  exact ⟨⟨root, Hash⟩, ⟨_, Hash⟩, hT, NewMerkleTree_ok _ [] _ hre,
    (updateNode_leaf_only (Hash new) (Hash old) Hash root hin).2.2.2.mpr hmem, rfl, rfl⟩

/-- Witness of C2 as amended, on the call of `TestUpdateMerkleTree`. -/
theorem C2_update_agrees_with_rebuild_witness :
    ∃ T T2, NewMerkleTree [hello, world, foo, bar] [] = .ok T ∧
      NewMerkleTree ([hello, world, foo, bar].set 1 hello) [] = .ok T2 ∧
      (T.UpdateMerkleTree hello world).2 = true ∧
      (T.UpdateMerkleTree hello world).1.Root = T2.Root ∧
      (T.UpdateMerkleTree hello world).1.GetRootHash = T2.GetRootHash :=
  C2_update_agrees_with_rebuild [hello, world, foo, bar] 1 world hello rfl
    (by
      intro j hj b hb
      have hj0 : j = 0 := by omega
      subst hj0
      have hb2 : hello = b := by simpa using hb
      subst hb2
      decide)
    (by
      intro T hT
      rw [NewMerkleTree_ok [hello, world, foo, bar] [] _ (buildTree_four Hash _ _ _ _)] at hT
      cases hT
      decide)

/-- C11, the code at the failing input: the tree `NewMerkleTree` returns for
the blocks `buf[0:3]` and `buf[5:10]` of a 10-byte `buf` holding "helloworld",
with the hash function that returns its argument, has the leaves "hel" and
"rldld".  After `AddData("12345")` the leaves show "hel", "dldld", "12345": the
`append` of line 59 has stored the second leaf behind the first once more, and
the second leaf did not keep its value. -/
theorem C11_shared_array_leaf_changed (spare : Nat → Nat → Nat) :
    ∃ T heap T1 heap1,
      Mem.NewMerkleTree spare [bytesOf "helloworld", bytesOf "12345"]
        [⟨0, 0, 3, 10⟩, ⟨0, 5, 5, 5⟩] [Mem.identity] = .ok (T, heap) ∧
      T.AddData spare heap ⟨1, 0, 5, 5⟩ = .ok (T1, heap1) ∧
      T.GetLeafNodeData.map (Mem.read heap) = [bytesOf "hel", bytesOf "rldld"] ∧
      Mem.read heap (T.HashFunction heap ⟨1, 0, 5, 5⟩).2 = bytesOf "12345" ∧
      T1.GetLeafNodeData.map (Mem.read heap1)
        = [bytesOf "hel", bytesOf "dldld", bytesOf "12345"] :=
  ⟨_, _, _, _, rfl, rfl, rfl, rfl, rfl⟩

/-- C12. Depth of small trees: `GetMaxDepth` is 1 for one block, 2 for two
blocks and 3 for four blocks, with the default or a supplied hash function. -/
theorem C12_depth_of_small_trees (hashDetails : List (Bytes → Bytes)) :
    (∀ b0, ∃ T, NewMerkleTree [b0] hashDetails = .ok T ∧ T.Root = .leaf (T.HashFunction b0) ∧
      T.GetMaxDepth = 1) ∧
    (∀ b0 b1, ∃ T, NewMerkleTree [b0, b1] hashDetails = .ok T ∧ T.GetMaxDepth = 2) ∧
    (∀ b0 b1 b2 b3, ∃ T, NewMerkleTree [b0, b1, b2, b3] hashDetails = .ok T ∧
      T.GetMaxDepth = 3) :=
  ⟨fun _ => ⟨_, NewMerkleTree_ok _ hashDetails _ (buildTree_one _ _), rfl, rfl⟩,
    fun _ _ => ⟨_, NewMerkleTree_ok _ hashDetails _ (buildTree_two _ _ _), rfl⟩,
    fun _ _ _ _ => ⟨_, NewMerkleTree_ok _ hashDetails _ (buildTree_four _ _ _ _ _), rfl⟩⟩

/-- C13, the code at the failing input: for the blocks `buf[0:3]` and
`buf[5:10]` of a 10-byte `buf` holding "helloworld" and the hash function `F`
that returns its argument, the root of the returned tree shows "helworld" while
its children show "hel" and "rldld": the root digest is not
`F(left.digest ++ right.digest)`, which is "helrldld", and the right leaf is
not `F(b1)`, which is "world". -/
theorem C13_shared_array_invariant_broken (spare : Nat → Nat → Nat) :
    ∃ T heap, Mem.NewMerkleTree spare [bytesOf "helloworld"] [⟨0, 0, 3, 10⟩, ⟨0, 5, 5, 5⟩]
        [Mem.identity] = .ok (T, heap) ∧
      T.Root = .inner (.leaf ⟨0, 0, 3, 10⟩) (.leaf ⟨0, 5, 5, 5⟩) ⟨0, 0, 8, 10⟩ ∧
      Mem.read heap ⟨0, 0, 8, 10⟩ = bytesOf "helworld" ∧
      Mem.read heap ⟨0, 0, 3, 10⟩ = bytesOf "hel" ∧
      Mem.read heap ⟨0, 5, 5, 5⟩ = bytesOf "rldld" ∧
      Mem.read heap ⟨0, 0, 3, 10⟩ ++ Mem.read heap ⟨0, 5, 5, 5⟩ = bytesOf "helrldld" :=
  ⟨_, _, rfl, rfl, rfl, rfl, rfl, rfl⟩

/-- C14, the claim fails: the tree of the blocks "hello" and "world" satisfies
the Merkle invariant; `UpdateMerkleTree("foo", x)` with `x` the 32 bytes
`Hash("hello") ++ Hash("world")` finds the digest `Hash(x)` at the root,
overwrites it with `Hash("foo")` and returns true, and the root no longer holds
the hash of the digests of its children. -/
theorem C14_update_breaks_invariant :
    ∃ T, NewMerkleTree [hello, world] [] = .ok T ∧ T.Root.Merkle T.HashFunction ∧
      (T.UpdateMerkleTree foo helloWorldDigests).2 = true ∧
      ¬ (T.UpdateMerkleTree foo helloWorldDigests).1.Root.Merkle T.HashFunction :=
  ⟨⟨_, Hash⟩, NewMerkleTree_ok _ [] _ (buildTree_two Hash _ _), by decide, by decide,
    by decide⟩

/-- C14 as amended. For every tree the package produced with the default hash
function (`NewMerkleTree(blocks)`, then any calls of `UpdateMerkleTree` and
`AddData`) in which every node with children holds the hash of the digests of
its children: after `UpdateMerkleTree(new, old)` every node with children still
does if and only if the first node of digest `Hash(old)` that the search meets
is not a node with children (it is a leaf, or there is none), or `Hash(new)` is
`Hash(old)`. -/
theorem C14_update_preserves_invariant (T : MerkleTree) (newData oldData : Bytes)
    (hT : FromDefaultHash T) (hm : T.Root.Merkle Hash) :
    (T.UpdateMerkleTree newData oldData).1.Root.Merkle Hash ↔
      (T.Root.firstMatchInner (Hash oldData) ≠ some true ∨ Hash newData = Hash oldData) := by
  have hH := fromDefaultHash_hash T hT
  obtain ⟨root, hf⟩ := T
  subst hH
  exact updateNode_merkle_iff (Hash newData) (Hash oldData) Hash root hm

/-- Witness of C14 as amended: the tree of "hello" and "world", updated for the
block "world", whose digest a leaf holds and no node before it. -/
theorem C14_update_preserves_invariant_witness :
    (MerkleTree.UpdateMerkleTree
      ⟨.inner (.leaf (Hash hello)) (.leaf (Hash world)) (Hash (Hash hello ++ Hash world)), Hash⟩
      foo world).1.Root.Merkle Hash :=
  (C14_update_preserves_invariant
    ⟨.inner (.leaf (Hash hello)) (.leaf (Hash world)) (Hash (Hash hello ++ Hash world)), Hash⟩
    foo world
    (FromDefaultHash.new [hello, world] _ (NewMerkleTree_ok _ [] _ (buildTree_two Hash _ _)))
    (by decide)).mpr (Or.inl (by decide))

/-- C15. Odd-node carry: for `2 ^ k` blocks `front` followed by one block
`last`, the right child of the root of `NewMerkleTree(front ++ [last])` is the
childless leaf of digest `Hash(last)`, its left child is the root of
`NewMerkleTree(front)`, and the root digest is `Hash(D ++ Hash(last))` with `D`
the root digest of `NewMerkleTree(front)`; for three blocks the root digest is
`Hash(Hash(Hash(b0) ++ Hash(b1)) ++ Hash(b2))`. -/
theorem C15_odd_node_carry :
    (∀ (k : Nat) (front : List Bytes) (last : Bytes), front.length = 2 ^ k →
      ∃ T T0, NewMerkleTree (front ++ [last]) [] = .ok T ∧ NewMerkleTree front [] = .ok T0 ∧
        T.Root = .inner T0.Root (.leaf (Hash last)) (Hash (T0.GetRootHash ++ Hash last)) ∧
        T.GetRootHash = Hash (T0.GetRootHash ++ Hash last)) ∧
    (∀ b0 b1 b2 : Bytes, ∃ T, NewMerkleTree [b0, b1, b2] [] = .ok T ∧
      T.GetRootHash = Hash (Hash (Hash b0 ++ Hash b1) ++ Hash b2)) := by
  refine ⟨fun k front last hlen => ?_,
    fun b0 b1 b2 => ⟨⟨_, Hash⟩, NewMerkleTree_ok _ [] _ (buildTree_three Hash _ _ _), rfl⟩⟩
  have hp : 2 ^ (k + 1) = 2 * 2 ^ k := by rw [Nat.pow_succ]; omega
  have hpos : 0 < 2 ^ k := Nat.two_pow_pos k
  have hmap : (front ++ [last]).map Hash = front.map Hash ++ [Hash last] := List.map_append _ _ _
  have hl : (front.map Hash).length = 2 ^ k := by rw [List.length_map, hlen]
  obtain ⟨l, r, hlok, hrok, hroot⟩ := buildTree_split Hash ((front ++ [last]).map Hash) k
    (by rw [hmap, List.length_append, hl]; simp)
    (by rw [hmap, List.length_append, hl]; simp; omega)
  rw [hmap, ← hl, List.take_left] at hlok
  rw [hmap, ← hl, List.drop_left, buildTree_one] at hrok
  cases hrok
  exact ⟨⟨_, Hash⟩, ⟨l, Hash⟩, NewMerkleTree_ok _ [] _ hroot, NewMerkleTree_ok _ [] _ hlok,
    rfl, rfl⟩

/-- Witness of C15: two blocks followed by a third. -/
theorem C15_odd_node_carry_witness :
    ∃ T T0, NewMerkleTree ([hello, world] ++ [foo]) [] = .ok T ∧
      NewMerkleTree [hello, world] [] = .ok T0 ∧
      T.Root = .inner T0.Root (.leaf (Hash foo)) (Hash (T0.GetRootHash ++ Hash foo)) ∧
      T.GetRootHash = Hash (T0.GetRootHash ++ Hash foo) :=
  C15_odd_node_carry.1 1 [hello, world] foo rfl

/-- C16. Shape is content-independent: two non-empty block sequences of the
same length, built with any two hash functions (supplied or default), give
trees of the same shape. -/
theorem C16_shape_is_content_independent (blocks blocks2 : List Bytes)
    (hashDetails hashDetails2 : List (Bytes → Bytes)) (hne : blocks ≠ [])
    (hlen : blocks.length = blocks2.length) :
    ∃ T T2, NewMerkleTree blocks hashDetails = .ok T ∧
      NewMerkleTree blocks2 hashDetails2 = .ok T2 ∧ T.Root.shape = T2.Root.shape := by
  have hne2 : blocks2 ≠ [] := by
    rintro rfl
    exact hne (List.length_eq_zero.mp hlen)
  obtain ⟨root, _, hok⟩ := buildTree_ok (chosenHash hashDetails)
    (blocks.map (chosenHash hashDetails)) (by simpa using hne)
  obtain ⟨root2, _, hok2⟩ := buildTree_ok (chosenHash hashDetails2)
    (blocks2.map (chosenHash hashDetails2)) (by simpa using hne2)
  exact ⟨⟨root, _⟩, ⟨root2, _⟩, NewMerkleTree_ok _ _ _ hok, NewMerkleTree_ok _ _ _ hok2,
    buildTree_shape _ _ _ _ _ _ hok hok2 (by simpa using hlen)⟩

/-- Witness of C16: three blocks under the default hash function and three
other blocks under the identity. -/
theorem C16_shape_is_content_independent_witness :
    ∃ T T2, NewMerkleTree [hello, world, foo] [] = .ok T ∧
      NewMerkleTree [bar, bar, hello] [id] = .ok T2 ∧ T.Root.shape = T2.Root.shape :=
  C16_shape_is_content_independent [hello, world, foo] [bar, bar, hello] [] [id]
    (by simp) rfl

/-- C17. The first block always verifies: for every non-empty sequence of
blocks `b0 :: rest` (duplicates and coinciding digests included), with the tree
built with the default hash function,
`VerifyMerklePath(GetRootHash(), b0, GetMerklePath(b0))` returns true. -/
theorem C17_first_block_verifies (b0 : Bytes) (rest : List Bytes) :
    ∃ T, NewMerkleTree (b0 :: rest) [] = .ok T ∧
      VerifyMerklePath T.GetRootHash b0 (T.GetMerklePath b0) = true := by
  obtain ⟨root, _, hok⟩ := buildTree_ok Hash ((b0 :: rest).map Hash) (List.cons_ne_nil _ _)
  have hm := buildTree_merkle Hash _ root hok
  have hleft : root.leftmost = Hash b0 := by
    obtain ⟨tl, htl⟩ := leaves_leftmost root
    rw [buildTree_leaves Hash _ root hok, List.map_cons] at htl
    exact (List.cons.inj htl).1.symm
  have hpath := getHashPath_leftmost_nil Hash root hm
  rw [hleft] at hpath
  exact ⟨⟨root, Hash⟩, NewMerkleTree_ok _ [] root hok, decide_eq_true hpath⟩

/-- C18, the code at the failing input: `buf` holds "abc" in an array of 3
bytes, the blocks are `buf[0:1]`, a separate "b" and `buf[1:2]`, the hash
function `F` returns its argument, the new block is a separate "d" and the old
one a separate "b".  The leaves of `T` show "a", "b", "b" and the nodes with
children "abb" and "ab", so `F("b")` is a leaf digest and the digest of no node
with children.  `UpdateMerkleTree("d", "b")` returns true; on the way up the
`append` of line 127 stores "d" behind "a" in `buf`, and the leaves show "a",
"d", "d" under the root "add": the later duplicate is overwritten too, where
the tree built from "a", "d", "b" has the root "adb". -/
theorem C18_shared_array_duplicate_overwritten (spare : Nat → Nat → Nat) :
    ∃ T heap U heap2,
      Mem.NewMerkleTree spare [bytesOf "abc", bytesOf "b", bytesOf "d", bytesOf "b"]
        [⟨0, 0, 1, 3⟩, ⟨1, 0, 1, 1⟩, ⟨0, 1, 1, 2⟩] [Mem.identity] = .ok (T, heap) ∧
      T.GetLeafNodeData.map (Mem.read heap) = [bytesOf "a", bytesOf "b", bytesOf "b"] ∧
      T.Root.innerDigests.map (Mem.read heap) = [bytesOf "abb", bytesOf "ab"] ∧
      T.UpdateMerkleTree spare heap ⟨2, 0, 1, 1⟩ ⟨3, 0, 1, 1⟩ = ((U, true), heap2) ∧
      U.GetLeafNodeData.map (Mem.read heap2) = [bytesOf "a", bytesOf "d", bytesOf "d"] ∧
      Mem.read heap2 U.GetRootHash = bytesOf "add" ∧
      buildTree id [bytesOf "a", bytesOf "d", bytesOf "b"]
        = .ok (.inner (.inner (.leaf (bytesOf "a")) (.leaf (bytesOf "d")) (bytesOf "ad"))
          (.leaf (bytesOf "b")) (bytesOf "adb")) :=
  ⟨⟨.inner (.inner (.leaf ⟨0, 0, 1, 3⟩) (.leaf ⟨1, 0, 1, 1⟩) ⟨0, 0, 2, 3⟩) (.leaf ⟨0, 1, 1, 2⟩)
      ⟨0, 0, 3, 3⟩, Mem.identity⟩,
    [bytesOf "abb", bytesOf "b", bytesOf "d", bytesOf "b"],
    ⟨.inner (.inner (.leaf ⟨0, 0, 1, 3⟩) (.leaf ⟨2, 0, 1, 1⟩) ⟨0, 0, 2, 3⟩) (.leaf ⟨0, 1, 1, 2⟩)
      ⟨0, 0, 3, 3⟩, Mem.identity⟩,
    [bytesOf "add", bytesOf "b", bytesOf "d", bytesOf "b"],
    rfl, rfl, rfl, rfl, rfl, rfl, rfl⟩

/-- C19. Depth formula: for a non-empty sequence of `n` blocks and the least
`k` with `n ≤ 2 ^ k`, `NewMerkleTree(blocks).GetMaxDepth()` is `1 + k`, with the
default or a supplied hash function. -/
theorem C19_depth_formula (blocks : List Bytes) (hashDetails : List (Bytes → Bytes)) (k : Nat)
    (hne : blocks ≠ []) (hk : blocks.length ≤ 2 ^ k)
    (hmin : ∀ i, i < k → 2 ^ i < blocks.length) :
    ∃ T, NewMerkleTree blocks hashDetails = .ok T ∧ T.GetMaxDepth = 1 + k := by
  obtain ⟨root, _, hok⟩ := buildTree_ok (chosenHash hashDetails)
    (blocks.map (chosenHash hashDetails)) (by simpa using hne)
  exact ⟨⟨root, _⟩, NewMerkleTree_ok _ _ _ hok,
    getMaxDepth_buildTree _ _ root k hok (by simpa using hk) (by simpa using hmin)⟩

/-- Witness of C19: five blocks, depth `1 + 3`. -/
theorem C19_depth_formula_witness :
    ∃ T, NewMerkleTree [hello, world, foo, bar, hello] [] = .ok T ∧ T.GetMaxDepth = 1 + 3 :=
  C19_depth_formula [hello, world, foo, bar, hello] [] 3 (by simp) (by decide)
    (by
      intro i hi
      have h4 : 2 ^ i ≤ 2 ^ 2 := Nat.pow_le_pow_right (by omega) (by omega)
      simp only [List.length_cons, List.length_nil]
      omega)

/-- C20, the code at the failing input: on the digests `buf[0:3]` and
`buf[5:10]` of a 10-byte `buf` holding "helloworld", with the hash function
that returns its argument, `buildTree` returns a node showing "helworld" over
the leaves "hel" and "rldld", which is not the hash of the two digests
concatenated ("helrldld"); `buildTree` of the remaining entry alone is the leaf
"world", which the right child no longer shows. -/
theorem C20_shared_array_split_differs (spare : Nat → Nat → Nat) :
    ∃ heap, Mem.buildTree spare Mem.identity [bytesOf "helloworld"]
        [⟨0, 0, 3, 10⟩, ⟨0, 5, 5, 5⟩]
        = .ok (.inner (.leaf ⟨0, 0, 3, 10⟩) (.leaf ⟨0, 5, 5, 5⟩) ⟨0, 0, 8, 10⟩, heap) ∧
      Mem.read heap ⟨0, 0, 8, 10⟩ = bytesOf "helworld" ∧
      Mem.read heap ⟨0, 0, 3, 10⟩ ++ Mem.read heap ⟨0, 5, 5, 5⟩ = bytesOf "helrldld" ∧
      Mem.buildTree spare Mem.identity [bytesOf "helloworld"] [⟨0, 5, 5, 5⟩]
        = .ok (.leaf ⟨0, 5, 5, 5⟩, [bytesOf "helloworld"]) ∧
      Mem.read [bytesOf "helloworld"] ⟨0, 5, 5, 5⟩ = bytesOf "world" ∧
      Mem.read heap ⟨0, 5, 5, 5⟩ = bytesOf "rldld" :=
  ⟨_, rfl, rfl, rfl, rfl, rfl, rfl⟩

end Merkletree
